import Mathlib

/-!
Verification of SpeedyDb: an in-memory B-tree index (package btree), a
length-prefixed binary record writer (package btreeWriting), and the
memory-bounded ingestion / flush driver (package main).

Go slices and strings are modelled as Lean lists; Go machine integers as
Nat / Int with explicit reductions mod 2^w at the points where the code
converts or truncates; mutation as explicit state passing.  Functions that
Go makes partial through panics on malformed trees are totalised with a
fuel argument or a default value; separate lemmas show the fuel never runs
out on the states reachable through the exported API.
-/

namespace SpeedyDb

/-- A Go byte string ([]byte or string): a list of byte values. -/
abbrev Bytes := List Nat

/-- Little-endian bytes of a 16-bit value (binary.LittleEndian.PutUint16). -/
def u16le (v : Nat) : Bytes := [v % 256, v / 256 % 256]

/-- Little-endian bytes of a 32-bit value (binary.LittleEndian.PutUint32). -/
def u32le (v : Nat) : Bytes :=
  [v % 256, v / 256 % 256, v / 65536 % 256, v / 16777216 % 256]

/-- Little-endian bytes of a 64-bit value (binary.LittleEndian.PutUint64). -/
def u64le (v : Nat) : Bytes :=
  [v % 256, v / 256 % 256, v / 65536 % 256, v / 16777216 % 256,
   v / 4294967296 % 256, v / 1099511627776 % 256,
   v / 281474976710656 % 256, v / 72057594037927936 % 256]

/-- appendI64: the int64 reinterpreted as uint64 (two-complement) and written
little-endian. -/
def i64le (v : Int) : Bytes := u64le ((v % (2 ^ 64 : Int)).toNat)

/-- One decimal ASCII digit. -/
def isDigit (c : Nat) : Bool := 48 ≤ c && c ≤ 57

/-- Decimal digit run to a number; none on a non-digit. -/
def digitsToNat (acc : Nat) : Bytes → Option Nat
  | [] => some acc
  | c :: cs => if isDigit c then digitsToNat (acc * 10 + (c - 48)) cs else none

/-- json.Number.Int64 = strconv.ParseInt(s, 10, 64): an optional sign, a
nonempty digit run, and the value within the signed 64-bit range. -/
def parseInt64 (s : Bytes) : Option Int :=
  let signed : Bool × Bytes :=
    match s with
    | 43 :: r => (false, r)
    | 45 :: r => (true, r)
    | r => (false, r)
  match signed with
  | (neg, rest) =>
    if rest.isEmpty then none
    else
      match digitsToNat 0 rest with
      | none => none
      | some n =>
        let v : Int := if neg then -(n : Int) else (n : Int)
        if -(2 ^ 63 : Int) ≤ v ∧ v ≤ (2 ^ 63 : Int) - 1 then some v else none

/-! ## Row values

Go rows are map[string]any.  The dynamic values the encoder (appendAny)
distinguishes are modelled as one closed inductive; arms of the Go type
switch that emit identical bytes share a constructor.  The generic
json.Marshal escape hatch of the default arm is abstracted as its outcome:
some bytes on success, none when marshalling fails. -/

inductive Val where
  /-- nil -/
  | vnull : Val
  /-- bool -/
  | vbool (b : Bool) : Val
  /-- int, int8, int16, int32, int64: all widen to int64 and encode alike. -/
  | vint (i : Int) : Val
  /-- uint, uint8, uint16, uint32: converted by int64(x) with no range check
  (a uint above the signed range wraps); encoded like vint after wrapping. -/
  | vuint (u : Nat) : Val
  /-- uint64: an explicit range check, an encode error above MaxInt64. -/
  | vuint64 (u : Nat) : Val
  /-- float32 and float64: the IEEE-754 bit pattern of the float64 written
  little-endian; the bits are carried opaquely. -/
  | vfloat64 (bits : Nat) : Val
  /-- json.Number: the decimal literal text. -/
  | vnum (s : Bytes) : Val
  /-- string -/
  | vstr (s : Bytes) : Val
  /-- []byte -/
  | vbytes (b : Bytes) : Val
  /-- any other value, sent through json.Marshal: some output bytes, or none
  when marshalling fails. -/
  | vjson (r : Option Bytes) : Val
deriving DecidableEq, Repr

/-- A row as the encoder sees it: the name/value pairs in map iteration
order (order unspecified, never reordered or deduplicated by the encoder). -/
abbrev RowT := List (Bytes × Val)

/-- btree.Item: primary key plus row.  Go int is a 64-bit integer; PKs stay
within that range in every reachable state, so Int carries them. -/
structure Item where
  PK : Int
  Row : RowT
deriving DecidableEq, Repr

instance : Inhabited Item := ⟨⟨0, []⟩⟩

/-! ## Record codec (btreeWriter.go) -/

def tagNil : Nat := 0
def tagBool : Nat := 1
def tagInt64 : Nat := 2
def tagFloat : Nat := 3
def tagString : Nat := 4
def tagBytes : Nat := 5
def tagJSON : Nat := 6

/-- appendAny: tag byte plus payload for one value; errors for a uint64
above the signed 64-bit range and for a value json.Marshal cannot encode. -/
def appendAny (dst : Bytes) (v : Val) : Except String Bytes :=
  match v with
  | .vnull => .ok (dst ++ [tagNil])
  | .vbool b => .ok (dst ++ [tagBool, if b then 1 else 0])
  | .vint i => .ok (dst ++ tagInt64 :: i64le i)
  | .vuint u => .ok (dst ++ tagInt64 :: i64le (Int.ofNat u))
  | .vuint64 u =>
    if 2 ^ 63 - 1 < u then .error "uint64 too large for int64"
    else .ok (dst ++ tagInt64 :: i64le (Int.ofNat u))
  | .vfloat64 bits => .ok (dst ++ tagFloat :: u64le bits)
  | .vnum s =>
    match parseInt64 s with
    | some i => .ok (dst ++ tagInt64 :: i64le i)
    | none => .ok (dst ++ tagString :: (u32le s.length ++ s))
  | .vstr s => .ok (dst ++ tagString :: (u32le s.length ++ s))
  | .vbytes b => .ok (dst ++ tagBytes :: (u32le b.length ++ b))
  | .vjson (some b) => .ok (dst ++ tagJSON :: (u32le b.length ++ b))
  | .vjson none => .error "unsupported type, json marshal failed"

/-- The field loop of encodeItemInto: name length byte, name bytes, value. -/
def encodeFields (dst : Bytes) : RowT → Except String Bytes
  | [] => .ok dst
  | (k, v) :: rest =>
    if 255 < k.length then .error "field name too long"
    else
      match appendAny ((dst ++ [k.length]) ++ k) v with
      | .error e => .error e
      | .ok dst1 => encodeFields dst1 rest

/-- encodeItemInto: u32 pk (the Go int truncated by uint32(it.PK)), u16
field count (error above 65535), then every field in row order. -/
def encodeItemInto (dst : Bytes) (it : Item) : Except String Bytes :=
  let dst1 := dst ++ u32le ((it.PK % (2 ^ 32 : Int)).toNat)
  if 65535 < it.Row.length then .error "too many fields"
  else encodeFields (dst1 ++ u16le it.Row.length) it.Row

/-- btreeWriting.Writer: the buffered sink modelled as the byte list handed
to it, plus the two counters.  The written items are carried alongside the
bytes so that statements can speak of the records a segment holds. -/
structure Writer where
  sink : Bytes
  BytesWritten : Nat
  Records : Nat
  items : List Item
deriving DecidableEq, Repr

def NewWriter : Writer := ⟨[], 0, 0, []⟩

/-- WriteItem: encode into a scratch buffer; on an encode error return it
with the writer untouched; on success write the u32 length prefix and the
record bytes and bump both counters. -/
def WriteItem (w : Writer) (it : Item) : Option String × Writer :=
  match encodeItemInto [] it with
  | .error e => (some e, w)
  | .ok buf =>
    (none,
     ⟨w.sink ++ u32le buf.length ++ buf,
      w.BytesWritten + (4 + buf.length),
      w.Records + 1,
      w.items ++ [it]⟩)

/-- The values appendAny rejects. -/
def valEncodeFails : Val → Bool
  | .vuint64 u => decide (2 ^ 63 - 1 < u)
  | .vjson none => true
  | _ => false

/-- When encodeItemInto errors: an oversize field count, an oversize field
name, or a value appendAny rejects. -/
def encodeFailCond (it : Item) : Bool :=
  decide (65535 < it.Row.length) ||
    it.Row.any fun f => decide (255 < f.1.length) || valEncodeFails f.2

/-- The value kinds the UseNumber JSON pipeline can place in a row: null,
bool, json.Number, string, and nested arrays or objects that go through the
json.Marshal fallback (which succeeds on JSON-decoded data). -/
def fromJSON : Val → Bool
  | .vnull => true
  | .vbool _ => true
  | .vnum _ => true
  | .vstr _ => true
  | .vjson (some _) => true
  | _ => false

/-! ## The B-tree (package btree)

A node owns its items and its children; leaf nodes carry the leaf flag and
an empty children list.  In every state btree.go can reach, a non-leaf node
with k items has k+1 children; the embedding keeps functions total on all
trees and proves the claims on the reachable ones. -/

inductive Node where
  | mk (leaf : Bool) (items : List Item) (children : List Node)
deriving Inhabited, Repr

def Node.leaf : Node → Bool
  | .mk lf _ _ => lf

def Node.items : Node → List Item
  | .mk _ its _ => its

def Node.children : Node → List Node
  | .mk _ _ cs => cs

mutual
/-- Height of a tree (1 for a single node); used as the fuel bound of the
insertion recursion, which descends one level per call. -/
def height : Node → Nat
  | .mk _ _ cs => 1 + heightList cs
def heightList : List Node → Nat
  | [] => 0
  | c :: cs => max (height c) (heightList cs)
end

structure BTree where
  t : Nat
  root : Node
  n : Nat
deriving Inhabited, Repr

/-- btree.New: clamp the minimum degree to at least 2, empty leaf root. -/
def New (t : Nat) : BTree :=
  ⟨if t < 2 then 2 else t, .mk true [] [], 0⟩

def BTree.Len (tr : BTree) : Nat := tr.n

def BTree.IsEmpty (tr : BTree) : Bool := tr.n == 0

/-- The loop of sort.Search: binary search for the smallest index in [0, n)
at which f holds (n when none), assuming f monotone.  The loop halves j - i
each pass, so n + 1 rounds of fuel always finish it. -/
def searchLoop (f : Nat → Bool) : Nat → Nat → Nat → Nat
  | 0, i, _ => i
  | fuel + 1, i, j =>
    if i < j then
      let h := (i + j) / 2
      if f h then searchLoop f fuel i h else searchLoop f fuel (h + 1) j
    else i

/-- sort.Search(n, f). -/
def sortSearch (n : Nat) (f : Nat → Bool) : Nat := searchLoop f (n + 1) 0 n

/-- The search every node performs: first index with items[i].PK >= pk. -/
def searchIdx (its : List Item) (pk : Int) : Nat :=
  sortSearch its.length fun j => pk ≤ (its.getD j default).PK

/-- splitChild(n, i): the full child y = children[i] gives its median item
up to n; y keeps the first t-1 items (and first t children), a new sibling
z takes the last t-1 items (and last t children) and lands at i+1. -/
def splitChild (t : Nat) : Node → Nat → Node
  | .mk lf its cs, i =>
    match cs.getD i default with
    | .mk yleaf yits ycs =>
      let median := yits.getD (t - 1) default
      let z : Node := .mk yleaf (yits.drop t) (if yleaf then [] else ycs.drop t)
      let y : Node := .mk yleaf (yits.take (t - 1)) (if yleaf then ycs else ycs.take t)
      .mk lf (its.insertIdx i median) (((cs.set i y).insertIdx (i + 1) z))

/-- insertNonFull: replace in place on an exact PK match at whatever level
it first appears; otherwise insert into the leaf slot, splitting any full
child met on the way down.  Returns (new tree, old item, replaced).  The
fuel falls by one per level; Upsert passes height root + 1, which a lemma
shows never runs out on reachable trees. -/
def insertNonFull (t : Nat) : Nat → Node → Item → Node × Item × Bool
  | 0, n, _ => (n, default, false)
  | _fuel + 1, .mk true its cs, it =>
    let i := searchIdx its it.PK
    if i < its.length ∧ (its.getD i default).PK = it.PK then
      (.mk true (its.set i it) cs, its.getD i default, true)
    else
      (.mk true (its.insertIdx i it) cs, default, false)
  | fuel + 1, .mk false its cs, it =>
    let i := searchIdx its it.PK
    if i < its.length ∧ (its.getD i default).PK = it.PK then
      (.mk false (its.set i it) cs, its.getD i default, true)
    else
      if (cs.getD i default).items.length = 2 * t - 1 then
        let n1 := splitChild t (.mk false its cs) i
        if (n1.items.getD i default).PK < it.PK then
          let r := insertNonFull t fuel (n1.children.getD (i + 1) default) it
          (.mk false n1.items (n1.children.set (i + 1) r.1), r.2.1, r.2.2)
        else if it.PK = (n1.items.getD i default).PK then
          (.mk false (n1.items.set i it) n1.children, n1.items.getD i default, true)
        else
          let r := insertNonFull t fuel (n1.children.getD i default) it
          (.mk false n1.items (n1.children.set i r.1), r.2.1, r.2.2)
      else
        let r := insertNonFull t fuel (cs.getD i default) it
        (.mk false its (cs.set i r.1), r.2.1, r.2.2)

/-- BTree.Upsert: split a full root first (raising the height by one), then
insert into the guaranteed non-full root; the item count grows only on a
fresh key. -/
def BTree.Upsert (tr : BTree) (it : Item) : BTree × Item × Bool :=
  let r := tr.root
  if r.items.length = 2 * tr.t - 1 then
    let s := splitChild tr.t (.mk false [] [r]) 0
    let res := insertNonFull tr.t (height r + 1) s it
    (⟨tr.t, res.1, if res.2.2 then tr.n else tr.n + 1⟩, res.2.1, res.2.2)
  else
    let res := insertNonFull tr.t (height r + 1) r it
    (⟨tr.t, res.1, if res.2.2 then tr.n else tr.n + 1⟩, res.2.1, res.2.2)

/-- BTree.Get: descend by the per-node search. -/
def getNode : Nat → Node → Int → Option RowT
  | 0, _, _ => none
  | fuel + 1, .mk lf its cs, pk =>
    let i := searchIdx its pk
    if i < its.length ∧ (its.getD i default).PK = pk then
      some (its.getD i default).Row
    else if lf then none
    else getNode fuel (cs.getD i default) pk

def BTree.Get (tr : BTree) (pk : Int) : Option RowT :=
  getNode (height tr.root) tr.root pk

/-! ## Ascending iterator (IterAscend / Iter.Next / pushLeft)

The cursor is its explicit stack of (node, next item index) frames, top at
the head. -/

structure Frame where
  n : Node
  i : Nat
deriving Repr

/-- pushLeft: push the frames of the leftmost path below n.  (On a non-leaf
node whose children slice is empty -- impossible in a reachable tree -- the
Go code would fault on children[0]; the model stops at the pushed frame.) -/
def pushLeft : Node → List Frame → List Frame
  | .mk true its cs, st => ⟨.mk true its cs, 0⟩ :: st
  | .mk false its [], st => ⟨.mk false its [], 0⟩ :: st
  | .mk false its (c :: cs), st => pushLeft c (⟨.mk false its (c :: cs), 0⟩ :: st)

/-- Iter.Next: pop exhausted frames; on a live frame emit item i, advance
the index, and for an internal node descend the leftmost path of child
i+1 before anything of this frame is emitted again. -/
def nextLoop : List Frame → Option (Item × List Frame)
  | [] => none
  | ⟨.mk lf its cs, i⟩ :: rest =>
    if i < its.length then
      let item := its.getD i default
      let st1 : List Frame := ⟨.mk lf its cs, i + 1⟩ :: rest
      some (item, if lf then st1 else pushLeft (cs.getD (i + 1) default) st1)
    else nextLoop rest

/-- Drive Next at most fuel times, collecting the emitted items in order. -/
def emitList : Nat → List Frame → List Item
  | 0, _ => []
  | fuel + 1, st =>
    match nextLoop st with
    | none => []
    | some (item, st1) => item :: emitList fuel st1

/-- BTree.IterAscend: a cursor holding the leftmost path of the root. -/
def BTree.IterAscend (tr : BTree) : List Frame := pushLeft tr.root []

/-! ## In-order contents

inorder gives exactly the sequence the cursor emits: the Go in-order walk
(child 0, item 0, child 1, ...).  tailZip is the walk from item i on. -/

mutual
def inorder : Node → List Item
  | .mk true its _ => its
  | .mk false its [] => its
  | .mk false its (c :: cs) => inorder c ++ tailZip its cs
def tailZip : List Item → List Node → List Item
  | [], _ => []
  | x :: xs, [] => x :: xs
  | x :: xs, c :: cs => x :: (inorder c ++ tailZip xs cs)
end

/-- The PKs of a run of items. -/
def keys (l : List Item) : List Int := l.map Item.PK

/-! ## AscendRange / ascendRangeNode

The traversal is embedded with the visitor purified: p is the visitor
outcome, and the items it was called on are returned in call order. -/

/-- One item of the per-node loop: call fn when lo <= PK < hi (the visited
item is recorded), then stop the whole walk if fn said no or PK >= hi. -/
def visitItem (lo hi : Int) (p : Item → Bool) (x : Item) : List Item × Bool :=
  if lo ≤ x.PK ∧ x.PK < hi then
    if p x then ([x], decide (x.PK < hi)) else ([x], false)
  else ([], decide (x.PK < hi))

mutual
def ascendRangeNode (lo hi : Int) (p : Item → Bool) : Node → List Item × Bool
  | .mk true its _ => ascendItems lo hi p its
  | .mk false its cs => ascendZip lo hi p its cs

/-- The loop over a leaf: no children between items. -/
def ascendItems (lo hi : Int) (p : Item → Bool) : List Item → List Item × Bool
  | [] => ([], true)
  | x :: xs =>
    match visitItem lo hi p x with
    | (v, false) => (v, false)
    | (v, true) =>
      match ascendItems lo hi p xs with
      | (r, b) => (v ++ r, b)

/-- The loop over an internal node: child i, item i, ..., then the final
child once the items run out. -/
def ascendZip (lo hi : Int) (p : Item → Bool) : List Item → List Node → List Item × Bool
  | _, [] => ([], true)
  | [], c :: _ => ascendRangeNode lo hi p c
  | x :: xs, c :: cs =>
    match ascendRangeNode lo hi p c with
    | (v, false) => (v, false)
    | (v, true) =>
      match visitItem lo hi p x with
      | (v2, false) => (v ++ v2, false)
      | (v2, true) =>
        match ascendZip lo hi p xs cs with
        | (r, b) => ((v ++ v2) ++ r, b)
end

/-- BTree.AscendRange: the items the visitor is called on, in call order. -/
def BTree.AscendRange (tr : BTree) (lo hi : Int) (p : Item → Bool) : List Item :=
  (ascendRangeNode lo hi p tr.root).1

/-- The longest prefix the visitor lets through, the refusing item
included: what an early-exit scan of a sorted run visits. -/
def takeUntilFalse (p : Item → Bool) : List Item → List Item
  | [] => []
  | x :: xs => if p x then x :: takeUntilFalse p xs else [x]

/-! ## Node enumeration, for the shape invariant -/

mutual
def allNodes : Node → List Node
  | .mk lf its cs => .mk lf its cs :: allNodesList cs
def allNodesList : List Node → List Node
  | [] => []
  | c :: cs => allNodes c ++ allNodesList cs
end

mutual
def leafDepths : Node → List Nat
  | .mk true _ _ => [0]
  | .mk false _ cs => (leafDepthsList cs).map (· + 1)
def leafDepthsList : List Node → List Nat
  | [] => []
  | c :: cs => leafDepths c ++ leafDepthsList cs
end

/-! ## Ingestion and flush driver (main.go)

The package-level mutable state is the explicit IngestState; the output
files are collected in order of creation.  Opening, renaming and writing
files succeed in the model (the claims about the driver all assume no
open or I/O errors); an encode error inside the write loop leaves the
writer unchanged and the loop running, as in the source. -/

structure IngestState where
  tr : BTree
  currentMapSize : Nat
  minKey : Int
  maxKey : Int
  setMinMaxKey : Bool
deriving Repr

/-- A finalized segment file: the bounds its name embeds and the records
written into it. -/
structure SegFile where
  lo : Int
  hi : Int
  recs : List Item
deriving DecidableEq, Repr

/-- iteratorWriter: drain the cursor into the writer; once BytesWritten
reaches breakAtBytes (0 meaning no limit) stop and report the PK of the
item just written; on exhaustion report 0.  A failed WriteItem is logged
and the loop continues.  The fuel exceeds the item count on every call the
driver makes. -/
def iteratorWriter : Nat → List Frame → Writer → Nat → List Frame × Writer × Int
  | 0, st, w, _ => (st, w, 0)
  | fuel + 1, st, w, breakAtBytes =>
    match nextLoop st with
    | none => (st, w, 0)
    | some (item, st1) =>
      let w1 := (WriteItem w item).2
      if breakAtBytes ≤ w1.BytesWritten ∧ breakAtBytes ≠ 0 then (st1, w1, item.PK)
      else iteratorWriter fuel st1 w1 breakAtBytes

/-- resetInMemoryState: a fresh degree-32 tree, zero size, min/max cleared. -/
def resetInMemoryState : IngestState := ⟨New 32, 0, 0, 0, false⟩

/-- writeMapToFile: write the lower segment up to half the budget, rename
it to [minKey, returned PK]; if the cursor still has an item, that item
opens the upper segment [its PK, maxKey], which takes the whole rest; then
discard the index and the trackers. -/
def writeMapToFile (G : IngestState) (MaxMemorySize : Nat) : List SegFile × IngestState :=
  let HalfMemorySize := MaxMemorySize / 2
  let it0 := G.tr.IterAscend
  match iteratorWriter (G.tr.n + 1) it0 NewWriter HalfMemorySize with
  | (it1, w1, minSplitMax) =>
    let lower : SegFile := ⟨G.minKey, minSplitMax, w1.items⟩
    match nextLoop it1 with
    | none => ([lower], resetInMemoryState)
    | some (item, it2) =>
      let maxSplitMin := item.PK
      let w2 := (WriteItem NewWriter item).2
      match iteratorWriter (G.tr.n + 1) it2 w2 0 with
      | (_, w3, _) => ([lower, ⟨maxSplitMin, G.maxKey, w3.items⟩], resetInMemoryState)

/-- One parsed input line as the scan loop sees it: the raw byte length,
the first field coerced to the primary key, and the rest of the fields.
(JSON tokenising -- readOrderedObject -- and ToInt are upstream of the
driver logic under verification and are abstracted into this record.) -/
structure Line where
  size : Nat
  pk : Int
  row : RowT
deriving Repr

/-- The first-field branch of the scan loop: initialise the trackers on
the first record after a reset, then fold in the new PK. -/
def trackMinMax (G : IngestState) (pk : Int) : IngestState :=
  let G1 := if ¬G.setMinMaxKey then
      { G with minKey := pk, maxKey := pk, setMinMaxKey := true } else G
  let G2 := if pk < G1.minKey then { G1 with minKey := pk } else G1
  if G2.maxKey < pk then { G2 with maxKey := pk } else G2

/-- One pass of the scan loop body for one line: flush first when this
line would push the accumulated size over the budget, then track min/max,
upsert, and account the line size. -/
def importStep (writeToDisk : Bool) (B : Nat) (acc : IngestState × List SegFile)
    (ln : Line) : IngestState × List SegFile :=
  let G0 := acc.1
  let coll :=
    if writeToDisk ∧ B < ln.size + G0.currentMapSize then
      match writeMapToFile G0 B with
      | (fs, G1) => (G1, acc.2 ++ fs)
    else (G0, acc.2)
  let G2 := trackMinMax coll.1 ln.pk
  let G3 := { G2 with tr := (G2.tr.Upsert ⟨ln.pk, ln.row⟩).1 }
  let G4 := if writeToDisk then { G3 with currentMapSize := G3.currentMapSize + ln.size } else G3
  (G4, coll.2)

/-- The scan loop over the whole input. -/
def importLoop (writeToDisk : Bool) (B : Nat) (acc : IngestState × List SegFile) :
    List Line → IngestState × List SegFile
  | [] => acc
  | ln :: rest => importLoop writeToDisk B (importStep writeToDisk B acc ln) rest

/-- The package-level state at program start: tr = btree.New(32), zero
counters and trackers. -/
def initialState : IngestState := ⟨New 32, 0, 0, 0, false⟩

/-- importDataFromFile: spilling happens only when the input file is bigger
than the memory budget (writeToDisk); after the scan loop, a final flush
runs only under the same gate and only when the index is non-empty. -/
def importDataFromFile (fileSize : Nat) (lines : List Line) (B : Nat) :
    IngestState × List SegFile :=
  let writeToDisk := decide (B < fileSize)
  match importLoop writeToDisk B (initialState, []) lines with
  | (G, files) =>
    if writeToDisk = true ∧ 0 < G.tr.Len then
      match writeMapToFile G B with
      | (fs, G1) => (G1, files ++ fs)
    else (G, files)

/-! ## The list-level model of the index -/

/-- Insertion into a sorted run: replace on an equal PK, insert before the
first larger PK. -/
def upsertList (it : Item) : List Item → List Item
  | [] => [it]
  | x :: xs =>
    if it.PK < x.PK then it :: x :: xs
    else if it.PK = x.PK then it :: xs
    else x :: upsertList it xs

/-- Fold a sequence of upserts over a tree. -/
def upsertAll (tr : BTree) : List Item → BTree
  | [] => tr
  | it :: rest => upsertAll (tr.Upsert it).1 rest

/-- The balance invariant, indexed by the uniform leaf depth h and a lower
occupancy bound lb (t-1 below the root, 0 at the root): item counts within
bounds, a non-leaf node with k items owning exactly k+1 children, every
child one level shorter. -/
inductive Bal (t : Nat) : Nat → Node → Nat → Prop where
  | leaf : ∀ lb its, lb ≤ its.length → its.length ≤ 2 * t - 1 →
      Bal t lb (.mk true its []) 0
  | internal : ∀ lb its cs h, lb ≤ its.length → its.length ≤ 2 * t - 1 →
      cs.length = its.length + 1 →
      (∀ c ∈ cs, Bal t (t - 1) c h) →
      Bal t lb (.mk false its cs) (h + 1)

/-- Every state reachable through New and Upsert: a clamped degree, a
balanced root, globally sorted contents, and a count that matches them. -/
def Inv (tr : BTree) : Prop :=
  2 ≤ tr.t ∧ (∃ h, Bal tr.t 0 tr.root h) ∧
    List.Sorted (· < ·) (keys (inorder tr.root)) ∧
    tr.n = (inorder tr.root).length

/-- The walk of an internal node up to but excluding child i:
child 0, item 0, child 1, ..., item i-1. -/
def preZip : Nat → List Item → List Node → List Item
  | 0, _, _ => []
  | _ + 1, [], _ => []
  | _ + 1, _ :: _, [] => []
  | i + 1, x :: xs, c :: cs => inorder c ++ x :: preZip i xs cs

/-- What one cursor frame still has to emit. -/
def remFrame : Frame → List Item
  | ⟨.mk true its _, i⟩ => its.drop i
  | ⟨.mk false its cs, i⟩ => tailZip (its.drop i) (cs.drop (i + 1))

/-- What a cursor stack still has to emit. -/
def stackRem : List Frame → List Item
  | [] => []
  | fr :: rest => remFrame fr ++ stackRem rest

/-! ## Codec lemmas -/

@[simp] theorem isOk_ok {ε α : Type} (a : α) : (Except.ok a : Except ε α).isOk = true := rfl

@[simp] theorem isOk_error {ε α : Type} (e : ε) : (Except.error e : Except ε α).isOk = false := rfl

theorem appendAny_isOk (dst : Bytes) (v : Val) :
    (appendAny dst v).isOk = !valEncodeFails v := by
  cases v with
  | vuint64 u =>
    simp only [appendAny, valEncodeFails]
    split <;> simp_all [Except.isOk]
  | vjson r => cases r <;> simp [appendAny, valEncodeFails, Except.isOk]
  | vnum s =>
    simp only [appendAny, valEncodeFails]
    cases parseInt64 s <;> simp [Except.isOk]
  | _ => simp [appendAny, valEncodeFails, Except.isOk]

theorem encodeFields_isOk (row : RowT) : ∀ dst : Bytes,
    (encodeFields dst row).isOk =
      !(row.any fun f => decide (255 < f.1.length) || valEncodeFails f.2) := by
  induction row with
  | nil => intro dst; simp [encodeFields, Except.isOk]
  | cons f rest ih =>
    intro dst
    obtain ⟨k, v⟩ := f
    simp only [encodeFields]
    split
    · simp_all [Except.isOk]
    · rename_i hk
      have hap := appendAny_isOk ((dst ++ [k.length]) ++ k) v
      cases hv : appendAny ((dst ++ [k.length]) ++ k) v with
      | error e =>
        rw [hv] at hap
        simp [Except.isOk] at hap
        simp [List.any_cons, hk, ← hap, Except.isOk]
      | ok dst1 =>
        rw [hv] at hap
        simp [Except.isOk] at hap
        simp [List.any_cons, hk, hap, ih dst1]

theorem encodeItemInto_isOk (dst : Bytes) (it : Item) :
    (encodeItemInto dst it).isOk = !encodeFailCond it := by
  simp only [encodeItemInto, encodeFailCond]
  split
  · simp_all [Except.isOk]
  · rename_i hc
    simp [encodeFields_isOk, hc]

/-- C8: WriteItem returns an error exactly when encoding the item fails
(too many fields, an over-long field name, a uint64 beyond the signed
64-bit range, or a failed fallback serialization); on an encode error the
writer -- sink bytes and both counters -- is untouched, and on success
BytesWritten grows by 4 plus the encoded length and Records by 1. -/
theorem writeItem_error_frame (w : Writer) (it : Item) :
    ((WriteItem w it).1.isSome ↔ encodeFailCond it = true) ∧
    ((WriteItem w it).1.isSome → (WriteItem w it).2 = w) ∧
    ((WriteItem w it).1 = none → ∃ buf, encodeItemInto [] it = .ok buf ∧
      (WriteItem w it).2.sink = w.sink ++ u32le buf.length ++ buf ∧
      (WriteItem w it).2.BytesWritten = w.BytesWritten + (4 + buf.length) ∧
      (WriteItem w it).2.Records = w.Records + 1) := by
  have hok := encodeItemInto_isOk [] it
  cases he : encodeItemInto [] it with
  | error e =>
    rw [he] at hok
    simp at hok
    refine ⟨?_, ?_, ?_⟩ <;> simp [WriteItem, he, hok]
  | ok buf =>
    rw [he] at hok
    simp at hok
    refine ⟨?_, ?_, ?_⟩ <;> simp [WriteItem, he, hok]

/-- C10: a json.Number whose Int64 conversion fails is written under the
string tag 4 with its u32 length and decimal text, never under the float
tag 3; more broadly, every value kind the UseNumber JSON pipeline feeds in
is encoded under a tag other than 3, so JSON-ingested rows carry no float
field. -/
theorem jsonNumber_never_float (dst s : Bytes) (v : Val)
    (hs : parseInt64 s = none) (hv : fromJSON v = true) :
    appendAny dst (.vnum s) = .ok (dst ++ tagString :: (u32le s.length ++ s)) ∧
    ∃ tag tl, appendAny dst v = .ok (dst ++ tag :: tl) ∧ tag ≠ tagFloat := by
  refine ⟨by simp [appendAny, hs], ?_⟩
  cases v with
  | vnull =>
    exact ⟨tagNil, [], by simp [appendAny], by decide⟩
  | vbool b =>
    exact ⟨tagBool, [if b then 1 else 0], by simp [appendAny], by decide⟩
  | vnum s2 =>
    cases hp : parseInt64 s2 with
    | none => exact ⟨tagString, u32le s2.length ++ s2, by simp [appendAny, hp], by decide⟩
    | some i => exact ⟨tagInt64, i64le i, by simp [appendAny, hp], by decide⟩
  | vstr s2 =>
    exact ⟨tagString, u32le s2.length ++ s2, by simp [appendAny], by decide⟩
  | vjson r =>
    cases r with
    | none => simp [fromJSON] at hv
    | some b => exact ⟨tagJSON, u32le b.length ++ b, by simp [appendAny], by decide⟩
  | _ => simp [fromJSON] at hv

/-- The C10 statement applied at the literal 3.5 (bytes "3.5"). -/
theorem jsonNumber_never_float_witness :
    appendAny [] (.vnum [51, 46, 53]) =
      .ok ([] ++ tagString :: (u32le ([51, 46, 53] : Bytes).length ++ [51, 46, 53])) ∧
    ∃ tag tl, appendAny [] (.vnum [51, 46, 53]) = .ok ([] ++ tag :: tl) ∧ tag ≠ tagFloat :=
  jsonNumber_never_float [] [51, 46, 53] (.vnum [51, 46, 53]) (by decide) (by decide)

/-! ## List access helpers -/

theorem getD_eq_get {α : Type} {l : List α} {i : Nat} (d : α) (h : i < l.length) :
    l.getD i d = l[i] := by
  rw [List.getD_eq_getElem?_getD, List.getElem?_eq_getElem h, Option.getD_some]

theorem getD_mem {α : Type} {l : List α} {i : Nat} (d : α) (h : i < l.length) :
    l.getD i d ∈ l := by
  rw [getD_eq_get d h]; exact List.getElem_mem h

theorem mem_insertIdx_sub {α : Type} {a v : α} {l : List α} {i : Nat} :
    a ∈ l.insertIdx i v → a = v ∨ a ∈ l := by
  induction l generalizing i with
  | nil =>
    cases i with
    | zero =>
      intro h
      simp [List.insertIdx] at h
      exact Or.inl h
    | succ j =>
      intro h
      simp [List.insertIdx_succ_nil] at h
  | cons x xs ih =>
    cases i with
    | zero =>
      intro h
      rw [List.insertIdx_zero] at h
      rcases List.mem_cons.mp h with h | h
      · exact Or.inl h
      · exact Or.inr h
    | succ j =>
      intro h
      rw [List.insertIdx_succ_cons] at h
      rcases List.mem_cons.mp h with h | h
      · exact Or.inr (h ▸ List.mem_cons_self x xs)
      · rcases ih h with h | h
        · exact Or.inl h
        · exact Or.inr (List.mem_cons_of_mem x h)

theorem mem_set_sub {α : Type} {a v : α} {l : List α} {i : Nat} :
    a ∈ l.set i v → a = v ∨ a ∈ l := by
  induction l generalizing i with
  | nil =>
    intro h
    simp at h
  | cons x xs ih =>
    cases i with
    | zero =>
      intro h
      rcases List.mem_cons.mp h with h | h
      · exact Or.inl h
      · exact Or.inr (List.mem_cons_of_mem x h)
    | succ j =>
      intro h
      rcases List.mem_cons.mp h with h | h
      · exact Or.inr (h ▸ List.mem_cons_self x xs)
      · rcases ih h with h | h
        · exact Or.inl h
        · exact Or.inr (List.mem_cons_of_mem x h)

theorem getD_set_self {α : Type} {l : List α} {i : Nat} (v d : α) (h : i < l.length) :
    (l.set i v).getD i d = v := by
  rw [getD_eq_get d (by simpa using h)]
  exact List.getElem_set_self (by simpa using h)

theorem getD_set_ne {α : Type} {l : List α} {i j : Nat} (v d : α) (hne : i ≠ j) :
    (l.set i v).getD j d = l.getD j d := by
  by_cases hj : j < l.length
  · rw [getD_eq_get d (by simpa using hj), getD_eq_get d hj]
    exact List.getElem_set_ne hne (by simpa using hj)
  · rw [List.getD_eq_getElem?_getD, List.getD_eq_getElem?_getD,
      List.getElem?_eq_none (by simpa using Nat.le_of_not_lt hj),
      List.getElem?_eq_none (by simpa using Nat.le_of_not_lt hj)]

theorem getD_insertIdx_self {α : Type} {l : List α} {i : Nat} (v d : α) (h : i ≤ l.length) :
    (l.insertIdx i v).getD i d = v := by
  rw [getD_eq_get d (by rw [List.length_insertIdx i l h]; omega)]
  exact List.getElem_insertIdx_self l v i h

theorem getD_insertIdx_lt {α : Type} {l : List α} {i j : Nat} (v d : α) (hj : j < i)
    (hi : i ≤ l.length) : (l.insertIdx i v).getD j d = l.getD j d := by
  have hjl : j < l.length := by omega
  rw [getD_eq_get d (by rw [List.length_insertIdx i l hi]; omega), getD_eq_get d hjl]
  exact List.getElem_insertIdx_of_lt l v i j hj hjl

theorem getD_insertIdx_succ {α : Type} {l : List α} {i j : Nat} (v d : α)
    (hj : i ≤ j) (hjl : j < l.length) :
    (l.insertIdx i v).getD (j + 1) d = l.getD j d := by
  have hi : i ≤ l.length := by omega
  rw [getD_eq_get d (by rw [List.length_insertIdx i l hi]; omega), getD_eq_get d hjl]
  obtain ⟨k, rfl⟩ := Nat.exists_eq_add_of_le hj
  have := List.getElem_insertIdx_add_succ l v i k (by omega)
  simpa [Nat.add_right_comm] using this

/-! ## Sorted-run helpers (strict order on the PKs) -/

theorem sorted_keys_append {A B : List Item} :
    List.Sorted (· < ·) (keys (A ++ B)) ↔
      List.Sorted (· < ·) (keys A) ∧ List.Sorted (· < ·) (keys B) ∧
        ∀ a ∈ A, ∀ b ∈ B, a.PK < b.PK := by
  simp only [keys, List.map_append, List.Sorted, List.pairwise_append]
  constructor
  · rintro ⟨h1, h2, h3⟩
    refine ⟨h1, h2, fun a ha b hb => h3 a.PK (List.mem_map_of_mem Item.PK ha)
      b.PK (List.mem_map_of_mem Item.PK hb)⟩
  · rintro ⟨h1, h2, h3⟩
    refine ⟨h1, h2, fun x hx y hy => ?_⟩
    obtain ⟨a, ha, rfl⟩ := List.mem_map.mp hx
    obtain ⟨b, hb, rfl⟩ := List.mem_map.mp hy
    exact h3 a ha b hb

theorem sorted_keys_cons {x : Item} {l : List Item} :
    List.Sorted (· < ·) (keys (x :: l)) ↔
      (∀ b ∈ l, x.PK < b.PK) ∧ List.Sorted (· < ·) (keys l) := by
  simp only [keys, List.map_cons, List.sorted_cons]
  constructor
  · rintro ⟨h1, h2⟩
    exact ⟨fun b hb => h1 b.PK (List.mem_map_of_mem Item.PK hb), h2⟩
  · rintro ⟨h1, h2⟩
    refine ⟨fun y hy => ?_, h2⟩
    obtain ⟨b, hb, rfl⟩ := List.mem_map.mp hy
    exact h1 b hb

theorem sorted_keys_sublist {A B : List Item} (h : A.Sublist B)
    (hs : List.Sorted (· < ·) (keys B)) : List.Sorted (· < ·) (keys A) :=
  List.Pairwise.sublist (List.Sublist.map Item.PK h) hs

theorem mem_keys {pk : Int} {l : List Item} :
    pk ∈ keys l ↔ ∃ a ∈ l, a.PK = pk := by
  simp [keys]

/-! ## The peeling calculus of inorder and tailZip -/

theorem tailZip_nil_right : ∀ X : List Item, tailZip X [] = X := by
  intro X
  cases X with
  | nil => rfl
  | cons x xs => rfl

theorem inorder_leaf (its : List Item) (cs : List Node) :
    inorder (.mk true its cs) = its := by
  rw [inorder]

theorem inorder_internal_nil (its : List Item) :
    inorder (.mk false its []) = its := by
  rw [inorder]

theorem inorder_internal_cons (its : List Item) (c : Node) (cs : List Node) :
    inorder (.mk false its (c :: cs)) = inorder c ++ tailZip its cs := by
  rw [inorder]

/-- Peeling one item off the walk: the rest of it is the walk of the node
one item shorter. -/
theorem tailZip_cons (x : Item) (xs : List Item) (cs : List Node) :
    tailZip (x :: xs) cs = x :: inorder (.mk false xs cs) := by
  cases cs with
  | nil => rw [tailZip, inorder_internal_nil]
  | cons c cs2 => rw [tailZip, inorder_internal_cons]

theorem tailZip_nil_left (cs : List Node) : tailZip [] cs = [] := by
  cases cs <;> rfl

/-! ## Basic facts about Bal -/

theorem heightList_mem {c : Node} {cs : List Node} (h : c ∈ cs) :
    height c ≤ heightList cs := by
  induction cs with
  | nil => cases h
  | cons d ds ih =>
    rw [heightList]
    rcases List.mem_cons.mp h with h | h
    · rw [h]; exact Nat.le_max_left _ _
    · exact Nat.le_trans (ih h) (Nat.le_max_right _ _)

theorem heightList_const {cs : List Node} {v : Nat} (hne : cs ≠ [])
    (h : ∀ c ∈ cs, height c = v) : heightList cs = v := by
  induction cs with
  | nil => exact absurd rfl hne
  | cons d ds ih =>
    rw [heightList]
    cases ds with
    | nil =>
      rw [heightList, h d (List.mem_cons_self d [])]
      omega
    | cons e es =>
      rw [ih (by simp) (fun c hc => h c (List.mem_cons_of_mem d hc)),
        h d (List.mem_cons_self d _)]
      omega

/-- A balanced tree of index h has height exactly h + 1. -/
theorem bal_height {t lb : Nat} {n : Node} {h : Nat} (hb : Bal t lb n h) :
    height n = h + 1 := by
  induction hb with
  | leaf lb its _ _ => rw [height, heightList]
  | internal lb its cs h _ _ hlen _ ih =>
    rw [height, heightList_const (by intro he; rw [he] at hlen; simp at hlen) ih]
    omega

theorem bal_child {t lb : Nat} {its : List Item} {cs : List Node} {h : Nat}
    (hb : Bal t lb (.mk false its cs) h) {i : Nat} (hi : i < cs.length) :
    Bal t (t - 1) (cs.getD i default) (h - 1) := by
  cases hb with
  | internal lb its cs h _ _ _ hcs =>
    simpa using hcs (cs.getD i default) (getD_mem default hi)

theorem bal_len {t lb : Nat} {n : Node} {h : Nat} (hb : Bal t lb n h) :
    lb ≤ n.items.length ∧ n.items.length ≤ 2 * t - 1 := by
  cases hb with
  | leaf lb its h1 h2 => exact ⟨h1, h2⟩
  | internal lb its cs h h1 h2 _ _ => exact ⟨h1, h2⟩

theorem bal_children_len {t lb : Nat} {its : List Item} {cs : List Node} {h : Nat}
    (hb : Bal t lb (.mk false its cs) h) : cs.length = its.length + 1 := by
  cases hb with
  | internal _ _ _ _ _ _ hlen _ => exact hlen

/-! ## The binary search meets its specification on monotone predicates -/

theorem searchLoop_spec (f : Nat → Bool) (n : Nat)
    (mono : ∀ a b, a ≤ b → b < n → f a = true → f b = true) :
    ∀ fuel i j, i ≤ j → j ≤ n → j - i < fuel →
      (∀ k, k < i → f k = false) → (∀ k, j ≤ k → k < n → f k = true) →
      i ≤ searchLoop f fuel i j ∧ searchLoop f fuel i j ≤ j ∧
        (∀ k, k < searchLoop f fuel i j → f k = false) ∧
        (∀ k, searchLoop f fuel i j ≤ k → k < n → f k = true) := by
  intro fuel
  induction fuel with
  | zero =>
    intro i j _ _ h3
    omega
  | succ fuel ih =>
    intro i j hij hjn hfuel hlo hhi
    rw [searchLoop]
    by_cases hlt : i < j
    · rw [if_pos hlt]
      by_cases hf : f ((i + j) / 2) = true
      · rw [if_pos hf]
        have hrec := ih i ((i + j) / 2) (by omega) (by omega) (by omega) hlo
          (fun k hk1 hk2 => mono ((i + j) / 2) k hk1 hk2 hf)
        exact ⟨hrec.1, by omega, hrec.2.2⟩
      · rw [if_neg hf]
        have hlo2 : ∀ k, k < (i + j) / 2 + 1 → f k = false := by
          intro k hk
          by_cases hki : k < i
          · exact hlo k hki
          · cases hfk : f k with
            | false => rfl
            | true =>
              exact absurd (mono k ((i + j) / 2) (by omega) (by omega) hfk)
                (by simpa using hf)
        have hrec := ih ((i + j) / 2 + 1) j (by omega) hjn (by omega) hlo2 hhi
        exact ⟨by omega, hrec.2.1, hrec.2.2⟩
    · rw [if_neg hlt]
      have hij2 : i = j := by omega
      exact ⟨Nat.le_refl i, by omega, hlo, fun k hk1 hk2 => hhi k (by omega) hk2⟩

theorem sorted_getD_le {its : List Item} (hs : List.Sorted (· < ·) (keys its))
    {a b : Nat} (hab : a ≤ b) (hb : b < its.length) :
    (its.getD a default).PK ≤ (its.getD b default).PK := by
  rcases Nat.eq_or_lt_of_le hab with rfl | hlt
  · exact le_refl _
  · rw [getD_eq_get default (by omega), getD_eq_get default hb]
    have hp := (List.pairwise_iff_getElem.mp hs) a b (by simp [keys]; omega)
      (by simp [keys]; omega) hlt
    simp only [keys] at hp
    rw [List.getElem_map, List.getElem_map] at hp
    exact le_of_lt hp

theorem searchIdx_spec (its : List Item) (pk : Int)
    (hs : List.Sorted (· < ·) (keys its)) :
    searchIdx its pk ≤ its.length ∧
      (∀ k, k < searchIdx its pk → (its.getD k default).PK < pk) ∧
      (searchIdx its pk < its.length → pk ≤ (its.getD (searchIdx its pk) default).PK) := by
  have mono : ∀ a b, a ≤ b → b < its.length →
      (decide (pk ≤ (its.getD a default).PK)) = true →
      decide (pk ≤ (its.getD b default).PK) = true := by
    intro a b hab hb ha
    rw [decide_eq_true_eq] at ha ⊢
    exact le_trans ha (sorted_getD_le hs hab hb)
  have hrun := searchLoop_spec (fun j => decide (pk ≤ (its.getD j default).PK))
    its.length mono (its.length + 1) 0 its.length (Nat.zero_le _) (Nat.le_refl _)
    (by omega) (by omega) (by omega)
  refine ⟨hrun.2.1, fun k hk => ?_, fun hlt => ?_⟩
  · have := hrun.2.2.1 k hk
    simp only [decide_eq_false_iff_not, not_le] at this
    exact this
  · have := hrun.2.2.2 (sortSearch its.length fun j => decide (pk ≤ (its.getD j default).PK))
      (Nat.le_refl _) hlt
    simpa [searchIdx, sortSearch] using this

/-! ## upsertList: insertion with replacement into a sorted run -/

theorem mem_upsertList {y it : Item} {l : List Item} (h : y ∈ upsertList it l) :
    y = it ∨ y ∈ l := by
  induction l with
  | nil =>
    rw [upsertList] at h
    rcases List.mem_cons.mp h with h | h
    · exact Or.inl h
    · simp at h
  | cons x xs ih =>
    rw [upsertList] at h
    split at h
    · rcases List.mem_cons.mp h with h | h
      · exact Or.inl h
      · exact Or.inr h
    · split at h
      · rcases List.mem_cons.mp h with h | h
        · exact Or.inl h
        · exact Or.inr (List.mem_cons_of_mem x h)
      · rcases List.mem_cons.mp h with h | h
        · exact Or.inr (h ▸ List.mem_cons_self x xs)
        · rcases ih h with h | h
          · exact Or.inl h
          · exact Or.inr (List.mem_cons_of_mem x h)

theorem upsertList_of_all_gt {it : Item} {B : List Item}
    (h : ∀ b ∈ B, it.PK < b.PK) : upsertList it B = it :: B := by
  cases B with
  | nil => rfl
  | cons x xs =>
    rw [upsertList, if_pos (h x (List.mem_cons_self x xs))]

theorem upsertList_append_left {it : Item} {A B : List Item}
    (h : ∀ a ∈ A, a.PK < it.PK) : upsertList it (A ++ B) = A ++ upsertList it B := by
  induction A with
  | nil => rfl
  | cons a as ih =>
    have ha := h a (List.mem_cons_self a as)
    rw [List.cons_append, upsertList, if_neg (by omega), if_neg (by omega),
      ih (fun x hx => h x (List.mem_cons_of_mem a hx)), List.cons_append]

theorem upsertList_append_right {it : Item} {M B : List Item}
    (h : ∀ b ∈ B, it.PK < b.PK) : upsertList it (M ++ B) = upsertList it M ++ B := by
  induction M with
  | nil => rw [List.nil_append, upsertList, upsertList_of_all_gt h, List.cons_append,
      List.nil_append]
  | cons x xs ih =>
    rw [List.cons_append, upsertList, upsertList]
    split
    · rw [List.cons_append, List.cons_append]
    · split
      · rw [List.cons_append]
      · rw [ih, List.cons_append]

theorem upsertList_sorted {it : Item} {l : List Item}
    (hs : List.Sorted (· < ·) (keys l)) :
    List.Sorted (· < ·) (keys (upsertList it l)) := by
  induction l with
  | nil => simp [upsertList, keys]
  | cons x xs ih =>
    rw [sorted_keys_cons] at hs
    rw [upsertList]
    split
    · rename_i hxlt
      rw [sorted_keys_cons]
      refine ⟨?_, (sorted_keys_cons).mpr hs⟩
      intro b hb
      rcases List.mem_cons.mp hb with rfl | hb
      · exact hxlt
      · exact lt_trans hxlt (hs.1 b hb)
    · split
      · rename_i hne heq
        rw [sorted_keys_cons]
        exact ⟨fun b hb => heq ▸ hs.1 b hb, hs.2⟩
      · rename_i h1 h2
        rw [sorted_keys_cons]
        refine ⟨?_, ih hs.2⟩
        intro b hb
        rcases mem_upsertList hb with rfl | hb
        · omega
        · exact hs.1 b hb

theorem upsertList_length {it : Item} {l : List Item}
    (hs : List.Sorted (· < ·) (keys l)) :
    (upsertList it l).length =
      if it.PK ∈ keys l then l.length else l.length + 1 := by
  induction l with
  | nil => simp [upsertList, keys]
  | cons x xs ih =>
    rw [sorted_keys_cons] at hs
    rw [upsertList]
    split
    · rename_i hxlt
      rw [if_neg]
      · simp
      · rw [mem_keys]
        rintro ⟨a, ha, heq⟩
        rcases List.mem_cons.mp ha with rfl | ha
        · omega
        · have := hs.1 a ha
          omega
    · split
      · rename_i h1 h2
        rw [if_pos]
        · simp
        · rw [mem_keys]
          exact ⟨x, List.mem_cons_self x xs, h2.symm⟩
      · rename_i h1 h2
        have hx : ¬(it.PK = x.PK) := fun he => h2 he
        rw [List.length_cons, ih hs.2]
        by_cases hm : it.PK ∈ keys xs
        · rw [if_pos hm, if_pos, List.length_cons]
          rw [mem_keys] at hm ⊢
          obtain ⟨a, ha, hb⟩ := hm
          exact ⟨a, List.mem_cons_of_mem x ha, hb⟩
        · rw [if_neg hm, if_neg, List.length_cons]
          rw [mem_keys] at hm ⊢
          rintro ⟨a, ha, heq⟩
          rcases List.mem_cons.mp ha with rfl | ha
          · exact hx heq.symm
          · exact hm ⟨a, ha, heq⟩

/-! ## Decomposing the walk of an internal node around child i -/

theorem inorder_decomp : ∀ (i : Nat) (its : List Item) (cs : List Node),
    cs.length = its.length + 1 → i ≤ its.length →
    inorder (.mk false its cs) =
      preZip i its cs ++ inorder (cs.getD i default) ++
        tailZip (its.drop i) (cs.drop (i + 1)) := by
  intro i
  induction i with
  | zero =>
    intro its cs hlen _
    cases cs with
    | nil => simp at hlen
    | cons c cs2 => simp [inorder_internal_cons, preZip]
  | succ i ih =>
    intro its cs hlen hi
    cases its with
    | nil => simp at hi
    | cons x xs =>
      cases cs with
      | nil => simp at hlen
      | cons c cs2 =>
        rw [inorder_internal_cons, tailZip_cons,
          ih xs cs2 (by simpa using hlen) (by simpa using hi)]
        simp [preZip, List.getD_cons_succ, List.drop_succ_cons]

theorem inorder_decomp_set : ∀ (i : Nat) (its : List Item) (cs : List Node) (c' : Node),
    cs.length = its.length + 1 → i ≤ its.length →
    inorder (.mk false its (cs.set i c')) =
      preZip i its cs ++ inorder c' ++ tailZip (its.drop i) (cs.drop (i + 1)) := by
  intro i
  induction i with
  | zero =>
    intro its cs c' hlen _
    cases cs with
    | nil => simp at hlen
    | cons c cs2 => simp [List.set_cons_zero, inorder_internal_cons, preZip]
  | succ i ih =>
    intro its cs c' hlen hi
    cases its with
    | nil => simp at hi
    | cons x xs =>
      cases cs with
      | nil => simp at hlen
      | cons c cs2 =>
        rw [List.set_cons_succ, inorder_internal_cons, tailZip_cons,
          ih xs cs2 c' (by simpa using hlen) (by simpa using hi)]
        simp [preZip, List.drop_succ_cons]

theorem inorder_decomp_item (i : Nat) (its : List Item) (cs : List Node)
    (hlen : cs.length = its.length + 1) (hi : i < its.length) :
    inorder (.mk false its cs) =
      preZip i its cs ++ inorder (cs.getD i default) ++ its.getD i default ::
        (inorder (cs.getD (i + 1) default) ++
          tailZip (its.drop (i + 1)) (cs.drop (i + 2))) := by
  rw [inorder_decomp i its cs hlen (le_of_lt hi)]
  have h1 : its.drop i = its.getD i default :: its.drop (i + 1) := by
    rw [getD_eq_get default hi]
    exact (List.getElem_cons_drop its i hi).symm
  have h2 : cs.drop (i + 1) = cs.getD (i + 1) default :: cs.drop (i + 2) := by
    rw [getD_eq_get default (by omega)]
    exact (List.getElem_cons_drop cs (i + 1) (by omega)).symm
  rw [h1, h2, tailZip]

theorem preZip_set_item : ∀ (i : Nat) (its : List Item) (cs : List Node) (v : Item),
    preZip i (its.set i v) cs = preZip i its cs := by
  intro i
  induction i with
  | zero =>
    intro its cs v
    rfl
  | succ i ih =>
    intro its cs v
    cases its with
    | nil => rfl
    | cons x xs =>
      cases cs with
      | nil => rw [List.set_cons_succ, preZip, preZip]
      | cons c cs2 => rw [List.set_cons_succ, preZip, preZip, ih]

theorem drop_set_self {α : Type} : ∀ (l : List α) (i : Nat) (v : α), i < l.length →
    (l.set i v).drop i = v :: l.drop (i + 1) := by
  intro l
  induction l with
  | nil =>
    intro i v hi
    simp at hi
  | cons x xs ih =>
    intro i v hi
    cases i with
    | zero => rw [List.set_cons_zero, List.drop_zero, List.drop_succ_cons, List.drop_zero]
    | succ i =>
      rw [List.set_cons_succ, List.drop_succ_cons, List.drop_succ_cons,
        ih i v (by simpa using hi)]

theorem inorder_decomp_setItem (i : Nat) (its : List Item) (cs : List Node) (it : Item)
    (hlen : cs.length = its.length + 1) (hi : i < its.length) :
    inorder (.mk false (its.set i it) cs) =
      preZip i its cs ++ inorder (cs.getD i default) ++ it ::
        (inorder (cs.getD (i + 1) default) ++
          tailZip (its.drop (i + 1)) (cs.drop (i + 2))) := by
  rw [inorder_decomp i (its.set i it) cs (by simpa using hlen)
    (by rw [List.length_set]; omega), preZip_set_item, drop_set_self its i it hi]
  have h2 : cs.drop (i + 1) = cs.getD (i + 1) default :: cs.drop (i + 2) := by
    rw [getD_eq_get default (by omega)]
    exact (List.getElem_cons_drop cs (i + 1) (by omega)).symm
  rw [h2, tailZip]

theorem zip_split : ∀ (k : Nat) (its : List Item) (cs : List Node),
    cs.length = its.length + 1 → k < its.length →
    inorder (.mk false (its.take k) (cs.take (k + 1))) ++ its.getD k default ::
      inorder (.mk false (its.drop (k + 1)) (cs.drop (k + 1))) =
    inorder (.mk false its cs) := by
  intro k
  induction k with
  | zero =>
    intro its cs hlen hk
    cases its with
    | nil => simp at hk
    | cons x xs =>
      cases cs with
      | nil => simp at hlen
      | cons c cs2 =>
        rw [List.take_zero, List.take_succ_cons, List.take_zero, List.getD_cons_zero,
          List.drop_succ_cons, List.drop_zero, List.drop_succ_cons, List.drop_zero,
          inorder_internal_cons, inorder_internal_cons, tailZip_nil_left, tailZip_cons,
          List.append_nil]
  | succ k ih =>
    intro its cs hlen hk
    cases its with
    | nil => simp at hk
    | cons x xs =>
      cases cs with
      | nil => simp at hlen
      | cons c cs2 =>
        rw [List.take_succ_cons, List.take_succ_cons, List.getD_cons_succ,
          List.drop_succ_cons, List.drop_succ_cons,
          inorder_internal_cons, inorder_internal_cons, tailZip_cons, tailZip_cons,
          List.append_assoc, List.cons_append]
        rw [← ih xs cs2 (by simpa using hlen)
          (by simp only [List.length_cons] at hk; omega)]

/-! ## Key bounds on the pieces of the decomposition -/

theorem preZip_keys_lt (pk : Int) : ∀ (i : Nat) (its : List Item) (cs : List Node),
    cs.length = its.length + 1 →
    List.Sorted (· < ·) (keys (inorder (.mk false its cs))) →
    (∀ j, j < i → (its.getD j default).PK < pk) →
    i ≤ its.length →
    ∀ a ∈ preZip i its cs, a.PK < pk := by
  intro i
  induction i with
  | zero =>
    intro its cs _ _ _ _ a ha
    simp [preZip] at ha
  | succ i ih =>
    intro its cs hlen hsort hlow hi a ha
    cases its with
    | nil => simp at hi
    | cons x xs =>
      cases cs with
      | nil => simp at hlen
      | cons c cs2 =>
        rw [preZip] at ha
        have hw : inorder (.mk false (x :: xs) (c :: cs2)) =
            inorder c ++ x :: inorder (.mk false xs cs2) := by
          rw [inorder_internal_cons, tailZip_cons]
        rw [hw] at hsort
        have hx : x.PK < pk := by
          have := hlow 0 (by omega)
          simpa using this
        rcases List.mem_append.mp ha with ha | ha
        · have hcross := (sorted_keys_append.mp hsort).2.2 a ha x
            (List.mem_cons_self _ _)
          omega
        · rcases List.mem_cons.mp ha with rfl | ha
          · exact hx
          · have hs2 : List.Sorted (· < ·) (keys (inorder (.mk false xs cs2))) :=
              (sorted_keys_cons.mp (sorted_keys_append.mp hsort).2.1).2
            exact ih xs cs2 (by simpa using hlen) hs2
              (fun j hj => by
                have := hlow (j + 1) (by omega)
                simpa using this)
              (by simp only [List.length_cons] at hi; omega) a ha

theorem tailSuffix_keys_gt (pk : Int) (i : Nat) (its : List Item) (cs : List Node)
    (hlen : cs.length = its.length + 1) (hi : i ≤ its.length)
    (hsort : List.Sorted (· < ·) (keys (inorder (.mk false its cs))))
    (hhigh : i < its.length → pk < (its.getD i default).PK) :
    ∀ b ∈ tailZip (its.drop i) (cs.drop (i + 1)), pk < b.PK := by
  by_cases hil : i < its.length
  · have hw := inorder_decomp i its cs hlen (le_of_lt hil)
    have h1 : its.drop i = its.getD i default :: its.drop (i + 1) := by
      rw [getD_eq_get default hil]
      exact (List.getElem_cons_drop its i hil).symm
    have hS : List.Sorted (· < ·)
        (keys (tailZip (its.drop i) (cs.drop (i + 1)))) := by
      apply sorted_keys_sublist _ (hw ▸ hsort)
      exact List.sublist_append_right _ _
    rw [h1, tailZip_cons] at hS ⊢
    intro b hb
    rcases List.mem_cons.mp hb with rfl | hb
    · exact hhigh hil
    · have := (sorted_keys_cons.mp hS).1 b hb
      have := hhigh hil
      omega
  · intro b hb
    rw [List.drop_eq_nil_of_le (by omega), tailZip_nil_left] at hb
    cases hb

/-! ## splitChild: shape, contents, balance -/

/-- The explicit lists splitChild builds. -/
theorem splitChild_shape (t : Nat) (lf : Bool) (its : List Item) (cs : List Node) (i : Nat) :
    splitChild t (.mk lf its cs) i =
      .mk lf (its.insertIdx i ((cs.getD i default).items.getD (t - 1) default))
        ((cs.set i (.mk (cs.getD i default).leaf
            ((cs.getD i default).items.take (t - 1))
            (if (cs.getD i default).leaf then (cs.getD i default).children
             else (cs.getD i default).children.take t))).insertIdx (i + 1)
          (.mk (cs.getD i default).leaf
            ((cs.getD i default).items.drop t)
            (if (cs.getD i default).leaf then []
             else (cs.getD i default).children.drop t))) := by
  cases hy : cs.getD i default with
  | mk yleaf yits ycs => simp only [splitChild, hy, Node.items, Node.leaf, Node.children]

/-- The two halves and the promoted median carry exactly the full child. -/
theorem split_content (t : Nat) (ht : 2 ≤ t) (yleaf : Bool) (yits : List Item)
    (ycs : List Node) {lby hy : Nat} (hbal : Bal t lby (.mk yleaf yits ycs) hy)
    (hfull : yits.length = 2 * t - 1) :
    inorder (.mk yleaf (yits.take (t - 1)) (if yleaf then ycs else ycs.take t)) ++
      yits.getD (t - 1) default ::
        inorder (.mk yleaf (yits.drop t) (if yleaf then [] else ycs.drop t)) =
    inorder (.mk yleaf yits ycs) := by
  cases hbal with
  | leaf lb its h1 h2 =>
    rw [if_pos rfl, if_pos rfl, inorder_leaf, inorder_leaf, inorder_leaf]
    have hdrop : yits.drop (t - 1) = yits.getD (t - 1) default :: yits.drop t := by
      have ht1 : t - 1 + 1 = t := by omega
      have h5 : yits.drop t = yits.drop (t - 1 + 1) := by rw [ht1]
      rw [getD_eq_get default (by omega), h5]
      exact (List.getElem_cons_drop yits (t - 1) (by omega)).symm
    have h3 := List.take_append_drop (t - 1) yits
    rw [hdrop] at h3
    exact h3
  | internal lb its cs h h1 h2 hlen hcs =>
    rw [if_neg (by simp), if_neg (by simp)]
    have ht1 : t - 1 + 1 = t := by omega
    have := zip_split (t - 1) yits ycs hlen (by omega)
    rw [ht1] at this
    exact this

/-- The two halves are balanced at the height of the full child, with
exactly t - 1 items each. -/
theorem split_bal (t : Nat) (ht : 2 ≤ t) (yleaf : Bool) (yits : List Item)
    (ycs : List Node) {lby hy : Nat} (hbal : Bal t lby (.mk yleaf yits ycs) hy)
    (hfull : yits.length = 2 * t - 1) :
    Bal t (t - 1) (.mk yleaf (yits.take (t - 1))
      (if yleaf then ycs else ycs.take t)) hy ∧
    Bal t (t - 1) (.mk yleaf (yits.drop t)
      (if yleaf then [] else ycs.drop t)) hy ∧
    (yits.take (t - 1)).length = t - 1 ∧ (yits.drop t).length = t - 1 := by
  have hlt : (yits.take (t - 1)).length = t - 1 := by
    rw [List.length_take]
    omega
  have hld : (yits.drop t).length = t - 1 := by
    rw [List.length_drop]
    omega
  cases hbal with
  | leaf lb its h1 h2 =>
    rw [if_pos rfl, if_pos rfl]
    exact ⟨Bal.leaf _ _ (by rw [hlt]) (by rw [hlt]; omega),
      Bal.leaf _ _ (by rw [hld]) (by rw [hld]; omega), hlt, hld⟩
  | internal lb its cs h h1 h2 hlen hcs =>
    rw [if_neg (by simp), if_neg (by simp)]
    refine ⟨Bal.internal _ _ _ _ (by omega) (by omega) ?_ ?_,
      Bal.internal _ _ _ _ (by omega) (by omega) ?_ ?_, hlt, hld⟩
    · rw [List.length_take]
      omega
    · intro c hc
      exact hcs c (List.Sublist.mem hc (List.take_sublist t ycs))
    · rw [List.length_drop]
      omega
    · intro c hc
      exact hcs c (List.Sublist.mem hc (List.drop_sublist t ycs))

/-- splitChild commutes with peeling the first item and child. -/
theorem splitChild_cons (t : Nat) (x : Item) (xs : List Item) (c : Node)
    (cs2 : List Node) (i : Nat) :
    splitChild t (.mk false (x :: xs) (c :: cs2)) (i + 1) =
      match splitChild t (.mk false xs cs2) i with
      | .mk _ its1 cs1 => .mk false (x :: its1) (c :: cs1) := by
  rw [splitChild_shape, splitChild_shape]
  simp [List.getD_cons_succ, List.set_cons_succ, List.insertIdx_succ_cons]

/-- Splitting a full child does not change the contents of the walk. -/
theorem splitChild_inorder (t : Nat) (ht : 2 ≤ t) :
    ∀ (i : Nat) (its : List Item) (cs : List Node) {lby hy : Nat},
    cs.length = its.length + 1 → i ≤ its.length →
    Bal t lby (cs.getD i default) hy →
    (cs.getD i default).items.length = 2 * t - 1 →
    inorder (splitChild t (.mk false its cs) i) = inorder (.mk false its cs) := by
  intro i
  induction i with
  | zero =>
    intro its cs lby hy hlen _ hbal hfull
    cases cs with
    | nil => simp at hlen
    | cons y cs2 =>
      rw [List.getD_cons_zero] at hbal hfull
      cases y with
      | mk yleaf yits ycs =>
        rw [splitChild_shape]
        simp only [List.getD_cons_zero, List.insertIdx_zero, List.set_cons_zero,
          List.insertIdx_succ_cons, Node.items, Node.leaf, Node.children]
        rw [inorder_internal_cons, tailZip, inorder_internal_cons,
          ← split_content t ht yleaf yits ycs hbal (by simpa [Node.items] using hfull)]
        simp
  | succ i ih =>
    intro its cs lby hy hlen hi hbal hfull
    cases its with
    | nil => simp at hi
    | cons x xs =>
      cases cs with
      | nil => simp at hlen
      | cons c cs2 =>
        rw [List.getD_cons_succ] at hbal hfull
        have hin := ih xs cs2 (by simpa using hlen) (by simpa using hi) hbal hfull
        rw [splitChild_cons]
        cases hsp : splitChild t (.mk false xs cs2) i with
        | mk lf1 its1 cs1 =>
          have hlf : lf1 = false := by
            have h2 := hsp
            rw [splitChild_shape] at h2
            cases h2
            rfl
          subst hlf
          rw [hsp] at hin
          rw [inorder_internal_cons, tailZip_cons, inorder_internal_cons,
            tailZip_cons, hin]

/-! ## One internal step of insertNonFull: replace at item i, or descend
into child i -/

theorem replace_at_item (its : List Item) (cs : List Node) (i : Nat) (it : Item)
    (hlen : cs.length = its.length + 1) (hi : i < its.length)
    (hsort : List.Sorted (· < ·) (keys (inorder (.mk false its cs))))
    (heq : (its.getD i default).PK = it.PK) :
    inorder (.mk false (its.set i it) cs) =
      upsertList it (inorder (.mk false its cs)) ∧
    it.PK ∈ keys (inorder (.mk false its cs)) ∧
    (inorder (.mk false its cs)).find? (fun x => x.PK == it.PK) =
      some (its.getD i default) := by
  have hd := inorder_decomp_item i its cs hlen hi
  have hds := inorder_decomp_setItem i its cs it hlen hi
  have hw := hd ▸ hsort
  have hPC : ∀ a ∈ preZip i its cs ++ inorder (cs.getD i default),
      a.PK < it.PK := by
    intro a ha
    have := (sorted_keys_append.mp hw).2.2 a ha (its.getD i default)
      (List.mem_cons_self _ _)
    omega
  refine ⟨?_, ?_, ?_⟩
  · rw [hd, hds, upsertList_append_left hPC, upsertList]
    rw [if_neg (by omega), if_pos heq.symm]
  · rw [hd, mem_keys]
    exact ⟨its.getD i default,
      List.mem_append.mpr (Or.inr (List.mem_cons_self _ _)), heq⟩
  · rw [hd, List.find?_append]
    have hPn : (preZip i its cs ++ inorder (cs.getD i default)).find?
        (fun x => x.PK == it.PK) = none := by
      rw [List.find?_eq_none]
      intro x hx
      simp only [beq_iff_eq]
      have := hPC x hx
      omega
    rw [hPn, List.find?_cons_of_pos _ (by simp only [beq_iff_eq]; exact heq)]
    rfl

theorem descend_at_child (its : List Item) (cs : List Node) (i : Nat) (it : Item)
    (c' : Node) (old : Item) (repl : Bool)
    (hlen : cs.length = its.length + 1) (hi : i ≤ its.length)
    (hsort : List.Sorted (· < ·) (keys (inorder (.mk false its cs))))
    (hlow : ∀ j, j < i → (its.getD j default).PK < it.PK)
    (hhigh : i < its.length → it.PK < (its.getD i default).PK)
    (hC1 : inorder c' = upsertList it (inorder (cs.getD i default)))
    (hC2 : repl = true ↔ it.PK ∈ keys (inorder (cs.getD i default)))
    (hC3 : repl = true →
      (inorder (cs.getD i default)).find? (fun x => x.PK == it.PK) = some old) :
    inorder (.mk false its (cs.set i c')) =
      upsertList it (inorder (.mk false its cs)) ∧
    (repl = true ↔ it.PK ∈ keys (inorder (.mk false its cs))) ∧
    (repl = true →
      (inorder (.mk false its cs)).find? (fun x => x.PK == it.PK) = some old) := by
  have hd := inorder_decomp i its cs hlen hi
  have hds := inorder_decomp_set i its cs c' hlen hi
  have hP := preZip_keys_lt it.PK i its cs hlen hsort hlow hi
  have hS := tailSuffix_keys_gt it.PK i its cs hlen hi hsort hhigh
  refine ⟨?_, ?_, ?_⟩
  · rw [hds, hd, hC1]
    simp only [List.append_assoc]
    rw [upsertList_append_left hP, upsertList_append_right hS]
  · rw [hC2, hd]
    constructor
    · intro hm
      rw [mem_keys]
      rw [mem_keys] at hm
      obtain ⟨a, ha, hak⟩ := hm
      exact ⟨a, List.mem_append.mpr (Or.inl (List.mem_append.mpr (Or.inr ha))), hak⟩
    · intro hm
      rw [mem_keys] at hm
      obtain ⟨a, ha, hak⟩ := hm
      rcases List.mem_append.mp ha with ha2 | haS
      · rcases List.mem_append.mp ha2 with haP | haC
        · have := hP a haP
          omega
        · exact mem_keys.mpr ⟨a, haC, hak⟩
      · have := hS a haS
        omega
  · intro hrep
    have hPn : (preZip i its cs).find? (fun x => x.PK == it.PK) = none := by
      rw [List.find?_eq_none]
      intro x hx
      simp only [beq_iff_eq]
      have := hP x hx
      omega
    rw [hd, List.find?_append, List.find?_append, hPn, hC3 hrep]
    rfl

/-! ## The leaf step of insertNonFull, on bare sorted runs -/

theorem upsertList_set (its : List Item) (i : Nat) (it : Item)
    (hs : List.Sorted (· < ·) (keys its)) (hi : i < its.length)
    (hlow : ∀ j, j < i → (its.getD j default).PK < it.PK)
    (heq : (its.getD i default).PK = it.PK) :
    upsertList it its = its.set i it ∧
    its.find? (fun x => x.PK == it.PK) = some (its.getD i default) := by
  induction its generalizing i with
  | nil => simp at hi
  | cons x xs ih =>
    cases i with
    | zero =>
      rw [List.getD_cons_zero] at heq
      constructor
      · rw [upsertList, if_neg (by omega), if_pos heq.symm, List.set_cons_zero]
      · rw [List.find?_cons_of_pos _ (by simp only [beq_iff_eq]; exact heq),
          List.getD_cons_zero]
    | succ j =>
      have hx : x.PK < it.PK := by
        have := hlow 0 (by omega)
        simpa using this
      have hrec := ih j (sorted_keys_cons.mp hs).2 (by simpa using hi)
        (fun k hk => by
          have := hlow (k + 1) (by omega)
          simpa using this)
        (by simpa using heq)
      constructor
      · rw [upsertList, if_neg (by omega), if_neg (by omega), hrec.1,
          List.set_cons_succ]
      · rw [List.find?_cons_of_neg _ (by simp only [beq_iff_eq]; omega),
          List.getD_cons_succ]
        exact hrec.2

theorem upsertList_insertIdx (its : List Item) (i : Nat) (it : Item)
    (hs : List.Sorted (· < ·) (keys its)) (hi : i ≤ its.length)
    (hlow : ∀ j, j < i → (its.getD j default).PK < it.PK)
    (hhigh : i < its.length → it.PK < (its.getD i default).PK) :
    upsertList it its = its.insertIdx i it ∧ it.PK ∉ keys its := by
  induction its generalizing i with
  | nil =>
    have hi0 : i = 0 := by simpa using hi
    subst hi0
    exact ⟨rfl, by simp [keys]⟩
  | cons x xs ih =>
    cases i with
    | zero =>
      have hx : it.PK < x.PK := by
        have := hhigh (by simp)
        simpa using this
      constructor
      · rw [upsertList, if_pos hx, List.insertIdx_zero]
      · rw [mem_keys]
        rintro ⟨a, ha, hak⟩
        rcases List.mem_cons.mp ha with rfl | ha
        · omega
        · have := (sorted_keys_cons.mp hs).1 a ha
          omega
    | succ j =>
      have hx : x.PK < it.PK := by
        have := hlow 0 (by omega)
        simpa using this
      have hrec := ih j (sorted_keys_cons.mp hs).2 (by simpa using hi)
        (fun k hk => by
          have := hlow (k + 1) (by omega)
          simpa using this)
        (fun hlt => by
          have := hhigh (by simpa using hlt)
          simpa using this)
      constructor
      · rw [upsertList, if_neg (by omega), if_neg (by omega), hrec.1,
          List.insertIdx_succ_cons]
      · rw [mem_keys]
        rintro ⟨a, ha, hak⟩
        rcases List.mem_cons.mp ha with rfl | ha
        · omega
        · exact hrec.2 (mem_keys.mpr ⟨a, ha, hak⟩)

/-! ## Subsequence facts used to transport sortedness downward -/

theorem items_sublist_tailZip : ∀ (its : List Item) (cs : List Node),
    its.Sublist (tailZip its cs) := by
  intro its
  induction its with
  | nil =>
    intro cs
    exact List.nil_sublist _
  | cons x xs ih =>
    intro cs
    cases cs with
    | nil => exact List.Sublist.refl _
    | cons c cs2 =>
      rw [tailZip]
      exact List.Sublist.cons₂ x
        (List.Sublist.trans (ih cs2) (List.sublist_append_right _ _))

theorem items_sublist_inorder (its : List Item) (cs : List Node) :
    its.Sublist (inorder (.mk false its cs)) := by
  cases cs with
  | nil => rw [inorder_internal_nil]
  | cons c cs2 =>
    rw [inorder_internal_cons]
    exact List.Sublist.trans (items_sublist_tailZip its cs2)
      (List.sublist_append_right _ _)

theorem child_inorder_sublist (its : List Item) (cs : List Node) (i : Nat)
    (hlen : cs.length = its.length + 1) (hi : i ≤ its.length) :
    (inorder (cs.getD i default)).Sublist (inorder (.mk false its cs)) := by
  rw [inorder_decomp i its cs hlen hi]
  exact List.Sublist.trans (List.sublist_append_right _ _)
    (List.sublist_append_left _ _)

/-- Rebuilding an internal node with one child replaced by an equally
balanced one. -/
theorem bal_rebuild (t : Nat) {its : List Item} {cs : List Node} {hsub lb : Nat}
    (hlb : lb ≤ its.length) (hub : its.length ≤ 2 * t - 1)
    (hlen : cs.length = its.length + 1)
    (hchild : ∀ c ∈ cs, Bal t (t - 1) c hsub)
    {i : Nat} {c' : Node} (hc' : Bal t (t - 1) c' hsub) :
    Bal t lb (.mk false its (cs.set i c')) (hsub + 1) := by
  refine Bal.internal _ _ _ _ hlb hub (by rw [List.length_set]; exact hlen) ?_
  intro c hc
  rcases mem_set_sub hc with rfl | hc
  · exact hc'
  · exact hchild c hc

/-! ## The specification of insertNonFull on balanced sorted trees -/

theorem insertNonFull_spec (t : Nat) (ht : 2 ≤ t) :
    ∀ (fuel : Nat) (n : Node) (h lb : Nat) (it : Item),
    Bal t lb n h →
    n.items.length < 2 * t - 1 →
    List.Sorted (· < ·) (keys (inorder n)) →
    height n ≤ fuel →
    inorder (insertNonFull t fuel n it).1 = upsertList it (inorder n) ∧
    Bal t lb (insertNonFull t fuel n it).1 h ∧
    ((insertNonFull t fuel n it).2.2 = true ↔ it.PK ∈ keys (inorder n)) ∧
    ((insertNonFull t fuel n it).2.2 = true →
      (inorder n).find? (fun x => x.PK == it.PK) =
        some (insertNonFull t fuel n it).2.1) ∧
    ((insertNonFull t fuel n it).2.2 = false →
      (insertNonFull t fuel n it).2.1 = default) := by
  intro fuel
  induction fuel with
  | zero =>
    intro n h lb it hbal _ _ hfuel
    have := bal_height hbal
    omega
  | succ fuel ih =>
    intro n h lb it hbal hnf hsort hfuel
    have hheight := bal_height hbal
    cases n with
    | mk lf its cs =>
    simp only [Node.items] at hnf
    cases lf with
    | true =>
      cases hbal with
      | leaf lb its hlb hub =>
        simp only [insertNonFull]
        rw [inorder_leaf] at hsort ⊢
        obtain ⟨hsle, hslow, hshigh⟩ := searchIdx_spec its it.PK hsort
        by_cases hm : searchIdx its it.PK < its.length ∧
            (its.getD (searchIdx its it.PK) default).PK = it.PK
        · rw [if_pos hm]
          have hset := upsertList_set its _ it hsort hm.1 hslow hm.2
          refine ⟨?_, ?_, ?_, ?_, ?_⟩
          · rw [inorder_leaf, hset.1]
          · exact Bal.leaf _ _ (by rw [List.length_set]; exact hlb)
              (by rw [List.length_set]; exact hub)
          · exact ⟨fun _ => mem_keys.mpr ⟨its.getD _ default,
              getD_mem default hm.1, hm.2⟩, fun _ => rfl⟩
          · intro _
            exact hset.2
          · intro hcon
            simp at hcon
        · rw [if_neg hm]
          have hstrict : searchIdx its it.PK < its.length →
              it.PK < (its.getD (searchIdx its it.PK) default).PK :=
            fun hlt => lt_of_le_of_ne (hshigh hlt) (fun he => hm ⟨hlt, he.symm⟩)
          have hins := upsertList_insertIdx its _ it hsort hsle hslow hstrict
          refine ⟨?_, ?_, ?_, ?_, ?_⟩
          · rw [inorder_leaf, hins.1]
          · exact Bal.leaf _ _
              (by rw [List.length_insertIdx _ _ hsle]; omega)
              (by rw [List.length_insertIdx _ _ hsle]; omega)
          · exact ⟨fun hcon => by simp at hcon, fun hmem => absurd hmem hins.2⟩
          · intro hcon
            simp at hcon
          · intro _
            rfl
    | false =>
      cases hbal with
      | internal lb its cs hsub hlb hub hlen hcs =>
        have hsits : List.Sorted (· < ·) (keys its) :=
          sorted_keys_sublist (items_sublist_inorder its cs) hsort
        obtain ⟨hsle, hslow, hshigh⟩ := searchIdx_spec its it.PK hsits
        simp only [insertNonFull]
        by_cases hm : searchIdx its it.PK < its.length ∧
            (its.getD (searchIdx its it.PK) default).PK = it.PK
        · rw [if_pos hm]
          have hrep := replace_at_item its cs _ it hlen hm.1 hsort hm.2
          refine ⟨hrep.1, ?_, ⟨fun _ => hrep.2.1, fun _ => rfl⟩,
            fun _ => hrep.2.2, fun hcon => by simp at hcon⟩
          exact Bal.internal _ _ _ _ (by rw [List.length_set]; exact hlb)
            (by rw [List.length_set]; exact hub)
            (by rw [List.length_set]; exact hlen) hcs
        · rw [if_neg hm]
          have hne : searchIdx its it.PK < its.length →
              it.PK < (its.getD (searchIdx its it.PK) default).PK :=
            fun hlt => lt_of_le_of_ne (hshigh hlt) (fun he => hm ⟨hlt, he.symm⟩)
          by_cases hfull : (cs.getD (searchIdx its it.PK) default).items.length =
              2 * t - 1
          · rw [if_pos hfull]
            set i := searchIdx its it.PK with hidef
            have hics : i < cs.length := by omega
            have hbal_y := hcs _ (getD_mem default hics)
            have hio0 := splitChild_inorder t ht i its cs hlen hsle hbal_y hfull
            have hshape := splitChild_shape t false its cs i
            cases hy : cs.getD i default with
            | mk yleaf yits ycs =>
            rw [hy] at hbal_y hfull hshape
            simp only [Node.items, Node.leaf, Node.children] at hfull hshape
            obtain ⟨hBy1, hBz, hly1, hlz⟩ :=
              split_bal t ht yleaf yits ycs hbal_y hfull
            rw [hshape] at hio0
            rw [hshape]
            simp only [Node.items, Node.children]
            set m := yits.getD (t - 1) default with hmdef
            set y1 : Node := .mk yleaf (yits.take (t - 1))
              (if yleaf then ycs else ycs.take t) with hy1def
            set z : Node := .mk yleaf (yits.drop t)
              (if yleaf then [] else ycs.drop t) with hzdef
            set ITS1 := its.insertIdx i m with hITS1
            set CS1 := (cs.set i y1).insertIdx (i + 1) z with hCS1
            have hlits1 : ITS1.length = its.length + 1 := by
              rw [hITS1, List.length_insertIdx _ _ hsle]
            have hlcs1 : CS1.length = cs.length + 1 := by
              rw [hCS1, List.length_insertIdx _ _ (by rw [List.length_set]; omega),
                List.length_set]
            have hlen1 : CS1.length = ITS1.length + 1 := by omega
            have hsort1 : List.Sorted (· < ·)
                (keys (inorder (.mk false ITS1 CS1))) := by
              rw [hio0]
              exact hsort
            have hch1 : ∀ c ∈ CS1, Bal t (t - 1) c hsub := by
              intro c hc
              rcases mem_insertIdx_sub hc with rfl | hc
              · exact hBz
              · rcases mem_set_sub hc with rfl | hc
                · exact hBy1
                · exact hcs c hc
            have hits1_i : ITS1.getD i default = m :=
              getD_insertIdx_self m default hsle
            have hits1_lt : ∀ j, j < i → ITS1.getD j default = its.getD j default :=
              fun j hj => getD_insertIdx_lt m default hj hsle
            have hits1_succ : i < its.length →
                ITS1.getD (i + 1) default = its.getD i default :=
              fun hlt => getD_insertIdx_succ m default (le_refl i) hlt
            have hcs1_i : CS1.getD i default = y1 := by
              rw [hCS1, getD_insertIdx_lt z default (by omega)
                (by rw [List.length_set]; omega), getD_set_self y1 default hics]
            have hcs1_succ : CS1.getD (i + 1) default = z :=
              getD_insertIdx_self z default (by rw [List.length_set]; omega)
            by_cases hgt : (ITS1.getD i default).PK < it.PK
            · rw [if_pos hgt]
              have hzn : z.items.length < 2 * t - 1 := by
                rw [hzdef]
                simp only [Node.items]
                omega
              have hzsort : List.Sorted (· < ·) (keys (inorder z)) := by
                have := child_inorder_sublist ITS1 CS1 (i + 1) hlen1 (by omega)
                rw [hcs1_succ] at this
                exact sorted_keys_sublist this hsort1
              have hzfuel : height z ≤ fuel := by
                rw [bal_height hBz]
                omega
              have hspec := ih z hsub (t - 1) it hBz hzn hzsort hzfuel
              rw [hcs1_succ]
              have hdesc := descend_at_child ITS1 CS1 (i + 1) it
                (insertNonFull t fuel z it).1 (insertNonFull t fuel z it).2.1
                (insertNonFull t fuel z it).2.2 hlen1 (by omega) hsort1
                (fun j hj => by
                  rcases Nat.lt_or_ge j i with hji | hji
                  · rw [hits1_lt j hji]
                    exact hslow j hji
                  · have hji2 : j = i := by omega
                    rw [hji2, hits1_i]
                    rw [hits1_i] at hgt
                    exact hgt)
                (fun hlt => by
                  have hlt2 : i < its.length := by omega
                  rw [hits1_succ hlt2]
                  exact hne hlt2)
                (by rw [hcs1_succ]; exact hspec.1)
                (by rw [hcs1_succ]; exact hspec.2.2.1)
                (by rw [hcs1_succ]; exact hspec.2.2.2.1)
              refine ⟨?_, ?_, ?_, ?_, ?_⟩
              · rw [hdesc.1, hio0]
              · exact bal_rebuild t (by omega) (by omega) hlen1 hch1 hspec.2.1
              · rw [hdesc.2.1, hio0]
              · intro hr
                have := hdesc.2.2 hr
                rw [hio0] at this
                exact this
              · exact hspec.2.2.2.2
            · rw [if_neg hgt]
              by_cases heq2 : it.PK = (ITS1.getD i default).PK
              · rw [if_pos heq2]
                have hrep := replace_at_item ITS1 CS1 i it hlen1 (by omega)
                  hsort1 heq2.symm
                refine ⟨?_, ?_, ?_, ?_, ?_⟩
                · rw [hrep.1, hio0]
                · exact Bal.internal _ _ _ _ (by rw [List.length_set]; omega)
                    (by rw [List.length_set]; omega)
                    (by rw [List.length_set]; omega) hch1
                · rw [hio0] at hrep
                  exact ⟨fun _ => hrep.2.1, fun _ => rfl⟩
                · intro _
                  rw [hio0] at hrep
                  exact hrep.2.2
                · intro hcon
                  simp at hcon
              · rw [if_neg heq2]
                have hlt3 : it.PK < (ITS1.getD i default).PK := by
                  rcases lt_trichotomy it.PK (ITS1.getD i default).PK with h3 | h3 | h3
                  · exact h3
                  · exact absurd h3 heq2
                  · exact absurd h3 hgt
                have hy1n : y1.items.length < 2 * t - 1 := by
                  rw [hy1def]
                  simp only [Node.items]
                  omega
                have hy1sort : List.Sorted (· < ·) (keys (inorder y1)) := by
                  have := child_inorder_sublist ITS1 CS1 i hlen1 (by omega)
                  rw [hcs1_i] at this
                  exact sorted_keys_sublist this hsort1
                have hy1fuel : height y1 ≤ fuel := by
                  rw [bal_height hBy1]
                  omega
                have hspec := ih y1 hsub (t - 1) it hBy1 hy1n hy1sort hy1fuel
                rw [hcs1_i]
                have hdesc := descend_at_child ITS1 CS1 i it
                  (insertNonFull t fuel y1 it).1 (insertNonFull t fuel y1 it).2.1
                  (insertNonFull t fuel y1 it).2.2 hlen1 (by omega) hsort1
                  (fun j hj => by
                    rw [hits1_lt j hj]
                    exact hslow j hj)
                  (fun _ => hlt3)
                  (by rw [hcs1_i]; exact hspec.1)
                  (by rw [hcs1_i]; exact hspec.2.2.1)
                  (by rw [hcs1_i]; exact hspec.2.2.2.1)
                refine ⟨?_, ?_, ?_, ?_, ?_⟩
                · rw [hdesc.1, hio0]
                · exact bal_rebuild t (by omega) (by omega) hlen1 hch1 hspec.2.1
                · rw [hdesc.2.1, hio0]
                · intro hr
                  have := hdesc.2.2 hr
                  rw [hio0] at this
                  exact this
                · exact hspec.2.2.2.2
          · rw [if_neg hfull]
            set i := searchIdx its it.PK with hidef
            have hics : i < cs.length := by omega
            have hbal_c := hcs _ (getD_mem default hics)
            have hcn : (cs.getD i default).items.length < 2 * t - 1 := by
              have := (bal_len hbal_c).2
              omega
            have hcsort : List.Sorted (· < ·)
                (keys (inorder (cs.getD i default))) :=
              sorted_keys_sublist (child_inorder_sublist its cs i hlen hsle) hsort
            have hcfuel : height (cs.getD i default) ≤ fuel := by
              rw [bal_height hbal_c]
              omega
            have hspec := ih (cs.getD i default) hsub (t - 1) it hbal_c hcn
              hcsort hcfuel
            have hdesc := descend_at_child its cs i it
              (insertNonFull t fuel (cs.getD i default) it).1
              (insertNonFull t fuel (cs.getD i default) it).2.1
              (insertNonFull t fuel (cs.getD i default) it).2.2 hlen hsle hsort
              hslow hne hspec.1 hspec.2.2.1 hspec.2.2.2.1
            refine ⟨hdesc.1, ?_, hdesc.2.1, hdesc.2.2, hspec.2.2.2.2⟩
            exact bal_rebuild t hlb hub hlen hcs hspec.2.1

/-! ## Upsert preserves the reachable-state invariant -/

theorem inorder_singleton_parent (r : Node) :
    inorder (.mk false [] [r]) = inorder r := by
  rw [inorder_internal_cons, tailZip_nil_left, List.append_nil]

theorem splitChild_root_bal (t : Nat) (ht : 2 ≤ t) (r : Node) {h : Nat}
    (hbal : Bal t 0 r h) (hfull : r.items.length = 2 * t - 1) :
    Bal t 0 (splitChild t (.mk false [] [r]) 0) (h + 1) ∧
    (splitChild t (.mk false [] [r]) 0).items.length = 1 := by
  cases r with
  | mk rl rits rcs =>
    rw [splitChild_shape]
    simp only [List.getD_cons_zero, Node.items, Node.leaf, Node.children,
      List.insertIdx_zero, List.set_cons_zero, List.insertIdx_succ_cons]
    obtain ⟨hBy1, hBz, _, _⟩ := split_bal t ht rl rits rcs hbal
      (by simpa [Node.items] using hfull)
    refine ⟨Bal.internal _ _ _ _ (by simp) (by simp; omega) (by simp) ?_, by simp⟩
    intro c hc
    rcases List.mem_cons.mp hc with rfl | hc
    · exact hBy1
    · rcases List.mem_cons.mp hc with rfl | hc
      · exact hBz
      · cases hc

theorem Upsert_spec (tr : BTree) (it : Item) (hinv : Inv tr) :
    Inv (tr.Upsert it).1 ∧
    inorder (tr.Upsert it).1.root = upsertList it (inorder tr.root) ∧
    ((tr.Upsert it).2.2 = true ↔ it.PK ∈ keys (inorder tr.root)) ∧
    ((tr.Upsert it).2.2 = true →
      (inorder tr.root).find? (fun x => x.PK == it.PK) = some (tr.Upsert it).2.1) ∧
    ((tr.Upsert it).2.2 = false → (tr.Upsert it).2.1 = default) ∧
    (tr.Upsert it).1.t = tr.t ∧
    (tr.Upsert it).1.n = (if (tr.Upsert it).2.2 then tr.n else tr.n + 1) := by
  obtain ⟨ht2, ⟨h, hbal⟩, hsort, hcount⟩ := hinv
  have hmain : inorder (tr.Upsert it).1.root = upsertList it (inorder tr.root) ∧
      (∃ h2, Bal tr.t 0 (tr.Upsert it).1.root h2) ∧
      ((tr.Upsert it).2.2 = true ↔ it.PK ∈ keys (inorder tr.root)) ∧
      ((tr.Upsert it).2.2 = true →
        (inorder tr.root).find? (fun x => x.PK == it.PK) = some (tr.Upsert it).2.1) ∧
      ((tr.Upsert it).2.2 = false → (tr.Upsert it).2.1 = default) ∧
      (tr.Upsert it).1.t = tr.t ∧
      (tr.Upsert it).1.n = (if (tr.Upsert it).2.2 then tr.n else tr.n + 1) := by
    by_cases hfull : tr.root.items.length = 2 * tr.t - 1
    · have hsb := splitChild_root_bal tr.t ht2 tr.root hbal hfull
      have hso : inorder (splitChild tr.t (.mk false [] [tr.root]) 0) =
          inorder tr.root := by
        rw [splitChild_inorder tr.t ht2 0 [] [tr.root] (by simp) (by simp)
          (by rw [List.getD_cons_zero]; exact hbal)
          (by rw [List.getD_cons_zero]; exact hfull), inorder_singleton_parent]
      have hspec := insertNonFull_spec tr.t ht2 (height tr.root + 1)
        (splitChild tr.t (.mk false [] [tr.root]) 0) (h + 1) 0 it hsb.1
        (by rw [hsb.2]; omega) (by rw [hso]; exact hsort)
        (by rw [bal_height hsb.1, bal_height hbal])
      rw [BTree.Upsert, if_pos hfull]
      rw [hso] at hspec
      exact ⟨hspec.1, ⟨h + 1, hspec.2.1⟩, hspec.2.2.1, hspec.2.2.2.1,
        hspec.2.2.2.2, rfl, rfl⟩
    · have hnf : tr.root.items.length < 2 * tr.t - 1 := by
        have := (bal_len hbal).2
        omega
      have hspec := insertNonFull_spec tr.t ht2 (height tr.root + 1) tr.root h 0
        it hbal hnf hsort (by omega)
      rw [BTree.Upsert, if_neg hfull]
      exact ⟨hspec.1, ⟨h, hspec.2.1⟩, hspec.2.2.1, hspec.2.2.2.1,
        hspec.2.2.2.2, rfl, rfl⟩
  refine ⟨⟨?_, ?_, ?_, ?_⟩, hmain.1, hmain.2.2⟩
  · rw [hmain.2.2.2.2.2.1]
    exact ht2
  · rw [hmain.2.2.2.2.2.1]
    exact hmain.2.1
  · rw [hmain.1]
    exact upsertList_sorted hsort
  · rw [hmain.2.2.2.2.2.2, hmain.1, upsertList_length hsort, hcount]
    by_cases hr : (tr.Upsert it).2.2 = true
    · rw [if_pos hr, if_pos (hmain.2.2.1.mp hr)]
    · rw [if_neg hr, if_neg fun hmem => hr (hmain.2.2.1.mpr hmem)]

theorem New_Inv (t0 : Nat) : Inv (New t0) := by
  have hshape : ∃ t1, New t0 = ⟨t1, .mk true [] [], 0⟩ ∧ 2 ≤ t1 := by
    rw [New]
    split
    · exact ⟨2, rfl, by omega⟩
    · exact ⟨t0, rfl, by omega⟩
  obtain ⟨t1, heq, ht1⟩ := hshape
  rw [heq]
  exact ⟨ht1, ⟨0, Bal.leaf _ _ (by simp) (by simp)⟩,
    by rw [inorder_leaf]; simp [keys], by rw [inorder_leaf]; rfl⟩

theorem upsertAll_Inv : ∀ (l : List Item) (tr : BTree), Inv tr →
    Inv (upsertAll tr l) := by
  intro l
  induction l with
  | nil =>
    intro tr hinv
    exact hinv
  | cons it rest ih =>
    intro tr hinv
    rw [upsertAll]
    exact ih _ (Upsert_spec tr it hinv).1

/-! ## The cursor emits exactly the in-order walk -/

theorem height_pos (n : Node) : 1 ≤ height n := by
  cases n with
  | mk lf its cs =>
    rw [height]
    omega

theorem stackRem_pushLeft : ∀ (k : Nat) (n : Node), height n ≤ k →
    ∀ (st : List Frame), stackRem (pushLeft n st) = inorder n ++ stackRem st := by
  intro k
  induction k with
  | zero =>
    intro n hn
    have := height_pos n
    omega
  | succ k ih =>
    intro n hn st
    cases n with
    | mk lf its cs =>
      cases lf with
      | true =>
        rw [pushLeft, stackRem, remFrame, List.drop_zero, inorder_leaf]
      | false =>
        cases cs with
        | nil =>
          rw [pushLeft, stackRem, remFrame, List.drop_zero, List.drop_nil,
            tailZip_nil_right, inorder_internal_nil]
        | cons c cs2 =>
          have hc : height c ≤ k := by
            rw [height] at hn
            have := heightList_mem (List.mem_cons_self c cs2)
            omega
          rw [pushLeft, ih c hc, stackRem, remFrame, List.drop_zero,
            List.drop_succ_cons, List.drop_zero, inorder_internal_cons,
            List.append_assoc]

theorem remFrame_exhausted {lf : Bool} {its : List Item} {cs : List Node} {i : Nat}
    (h : ¬i < its.length) : remFrame ⟨.mk lf its cs, i⟩ = [] := by
  cases lf with
  | true =>
    rw [remFrame, List.drop_eq_nil_of_le (by omega)]
  | false =>
    rw [remFrame, List.drop_eq_nil_of_le (by omega), tailZip_nil_left]

theorem nextLoop_none : ∀ st : List Frame, nextLoop st = none → stackRem st = [] := by
  intro st
  induction st with
  | nil =>
    intro _
    rfl
  | cons fr rest ih =>
    intro h
    obtain ⟨nd, i⟩ := fr
    cases nd with
    | mk lf its cs =>
      rw [nextLoop] at h
      by_cases hlt : i < its.length
      · rw [if_pos hlt] at h
        cases h
      · rw [if_neg hlt] at h
        rw [stackRem, remFrame_exhausted hlt, ih h]
        rfl

theorem getD_of_length_le {α : Type} {l : List α} {i : Nat} (d : α)
    (h : l.length ≤ i) : l.getD i d = d := by
  rw [List.getD_eq_getElem?_getD, List.getElem?_eq_none h, Option.getD_none]

theorem inorder_default : inorder (default : Node) = [] := by
  rfl

theorem nextLoop_some : ∀ (st st' : List Frame) (item : Item),
    nextLoop st = some (item, st') → stackRem st = item :: stackRem st' := by
  intro st
  induction st with
  | nil =>
    intro st' item h
    cases h
  | cons fr rest ih =>
    intro st' item h
    obtain ⟨nd, i⟩ := fr
    cases nd with
    | mk lf its cs =>
      rw [nextLoop] at h
      by_cases hlt : i < its.length
      · rw [if_pos hlt] at h
        have hitem : its.getD i default = item := by
          injection h with h2
          injection h2 with h3 h4
        have hst : st' = (if lf = true
            then (⟨.mk lf its cs, i + 1⟩ :: rest : List Frame)
            else pushLeft (cs.getD (i + 1) default)
              (⟨.mk lf its cs, i + 1⟩ :: rest)) := by
          injection h with h2
          injection h2 with h3 h4
          exact h4.symm
        have hdropi : its.drop i = its.getD i default :: its.drop (i + 1) := by
          rw [getD_eq_get default hlt]
          exact (List.getElem_cons_drop its i hlt).symm
        cases lf with
        | true =>
          rw [if_pos rfl] at hst
          subst hst
          rw [stackRem, remFrame, hdropi, hitem, stackRem, remFrame]
          rfl
        | false =>
          rw [if_neg (by simp)] at hst
          subst hst
          rw [stackRem, remFrame, hdropi, hitem,
            stackRem_pushLeft (height (cs.getD (i + 1) default)) _ (le_refl _),
            stackRem, remFrame]
          by_cases hic : i + 1 < cs.length
          · have hdropc : cs.drop (i + 1) =
                cs.getD (i + 1) default :: cs.drop (i + 2) := by
              rw [getD_eq_get default hic]
              exact (List.getElem_cons_drop cs (i + 1) hic).symm
            rw [hdropc, tailZip_cons, inorder_internal_cons]
            simp [List.append_assoc]
          · have hd1 : cs.drop (i + 1) = [] := List.drop_eq_nil_of_le (by omega)
            have hd2 : cs.drop (i + 2) = [] := List.drop_eq_nil_of_le (by omega)
            have hd2b : cs.drop (i + 1 + 1) = [] := hd2
            rw [hd1, hd2b, tailZip_cons, getD_of_length_le default (by omega),
              inorder_default, inorder_internal_nil]
            simp [tailZip_nil_right]
      · rw [if_neg hlt] at h
        rw [stackRem, remFrame_exhausted hlt, List.nil_append]
        exact ih st' item h

theorem emitList_eq_stackRem : ∀ (fuel : Nat) (st : List Frame),
    (stackRem st).length < fuel → emitList fuel st = stackRem st := by
  intro fuel
  induction fuel with
  | zero =>
    intro st h
    omega
  | succ fuel ih =>
    intro st h
    rw [emitList]
    cases hn : nextLoop st with
    | none => rw [nextLoop_none st hn]
    | some pr =>
      obtain ⟨item, st'⟩ := pr
      have h2 := nextLoop_some st st' item hn
      rw [h2]
      show item :: emitList fuel st' = item :: stackRem st'
      rw [ih st' (by rw [h2] at h; rw [List.length_cons] at h; omega)]

theorem iterAscend_emits_inorder (tr : BTree) (hinv : Inv tr) :
    ∀ extra : Nat, emitList (tr.n + 1 + extra) tr.IterAscend = inorder tr.root := by
  intro extra
  have hrem : stackRem tr.IterAscend = inorder tr.root := by
    rw [BTree.IterAscend,
      stackRem_pushLeft (height tr.root) tr.root (le_refl _) [], stackRem,
      List.append_nil]
  rw [emitList_eq_stackRem _ _ (by rw [hrem, ← hinv.2.2.2]; omega), hrem]

/-! ## Per-node consequences of the balance invariant -/

theorem mem_allNodesList {m : Node} : ∀ {cs : List Node},
    m ∈ allNodesList cs ↔ ∃ c ∈ cs, m ∈ allNodes c := by
  intro cs
  induction cs with
  | nil =>
    rw [allNodesList]
    simp
  | cons c cs2 ih =>
    rw [allNodesList]
    constructor
    · intro hm
      rcases List.mem_append.mp hm with hm | hm
      · exact ⟨c, List.mem_cons_self c cs2, hm⟩
      · obtain ⟨c2, hc2, hm2⟩ := ih.mp hm
        exact ⟨c2, List.mem_cons_of_mem c hc2, hm2⟩
    · rintro ⟨c2, hc2, hm2⟩
      rcases List.mem_cons.mp hc2 with rfl | hc2
      · exact List.mem_append.mpr (Or.inl hm2)
      · exact List.mem_append.mpr (Or.inr (ih.mpr ⟨c2, hc2, hm2⟩))

theorem mem_leafDepthsList {d : Nat} : ∀ {cs : List Node},
    d ∈ leafDepthsList cs ↔ ∃ c ∈ cs, d ∈ leafDepths c := by
  intro cs
  induction cs with
  | nil =>
    rw [leafDepthsList]
    simp
  | cons c cs2 ih =>
    rw [leafDepthsList]
    constructor
    · intro hm
      rcases List.mem_append.mp hm with hm | hm
      · exact ⟨c, List.mem_cons_self c cs2, hm⟩
      · obtain ⟨c2, hc2, hm2⟩ := ih.mp hm
        exact ⟨c2, List.mem_cons_of_mem c hc2, hm2⟩
    · rintro ⟨c2, hc2, hm2⟩
      rcases List.mem_cons.mp hc2 with rfl | hc2
      · exact List.mem_append.mpr (Or.inl hm2)
      · exact List.mem_append.mpr (Or.inr (ih.mpr ⟨c2, hc2, hm2⟩))

theorem bal_allNodes {t : Nat} : ∀ {lb h : Nat} {n : Node}, Bal t lb n h →
    ∀ m ∈ allNodes n,
      (t - 1 ≤ m.items.length ∨ m = n) ∧ m.items.length ≤ 2 * t - 1 ∧
      (m.leaf = false → m.children.length = m.items.length + 1) := by
  intro lb h n hb
  induction hb with
  | leaf lb its h1 h2 =>
    intro m hm
    rw [allNodes, allNodesList] at hm
    rcases List.mem_cons.mp hm with rfl | hm
    · exact ⟨Or.inr rfl, h2, by intro hlf; simp [Node.leaf] at hlf⟩
    · cases hm
  | internal lb its cs h h1 h2 hlen hcs ih =>
    intro m hm
    rw [allNodes] at hm
    rcases List.mem_cons.mp hm with rfl | hm
    · exact ⟨Or.inr rfl, h2, fun _ => hlen⟩
    · obtain ⟨c, hc, hm2⟩ := mem_allNodesList.mp hm
      have hr := ih c hc m hm2
      refine ⟨Or.inl ?_, hr.2⟩
      rcases hr.1 with hr1 | rfl
      · exact hr1
      · exact (bal_len (hcs m hc)).1

theorem bal_leafDepths {t : Nat} : ∀ {lb h : Nat} {n : Node}, Bal t lb n h →
    ∀ d ∈ leafDepths n, d = h := by
  intro lb h n hb
  induction hb with
  | leaf lb its h1 h2 =>
    intro d hd
    rw [leafDepths] at hd
    simpa using hd
  | internal lb its cs h h1 h2 hlen hcs ih =>
    intro d hd
    rw [leafDepths] at hd
    obtain ⟨d2, hd2, rfl⟩ := List.mem_map.mp hd
    obtain ⟨c, hc, hdc⟩ := mem_leafDepthsList.mp hd2
    rw [ih c hc d2 hdc]

theorem items_sublist_inorder_any (m : Node) : m.items.Sublist (inorder m) := by
  cases m with
  | mk lf its cs =>
    cases lf with
    | true =>
      rw [inorder_leaf, Node.items]
    | false =>
      exact items_sublist_inorder its cs

theorem inorder_allNodes_sublist {t : Nat} : ∀ {lb h : Nat} {n : Node},
    Bal t lb n h → ∀ m ∈ allNodes n, (inorder m).Sublist (inorder n) := by
  intro lb h n hb
  induction hb with
  | leaf lb its h1 h2 =>
    intro m hm
    rw [allNodes, allNodesList] at hm
    rcases List.mem_cons.mp hm with rfl | hm
    · exact List.Sublist.refl _
    · cases hm
  | internal lb its cs h h1 h2 hlen hcs ih =>
    intro m hm
    rw [allNodes] at hm
    rcases List.mem_cons.mp hm with rfl | hm
    · exact List.Sublist.refl _
    · obtain ⟨c, hc, hm2⟩ := mem_allNodesList.mp hm
      obtain ⟨i, hi, rfl⟩ := List.mem_iff_getElem.mp hc
      have hsub := child_inorder_sublist its cs i hlen (by omega)
      rw [getD_eq_get default hi] at hsub
      exact List.Sublist.trans (ih cs[i] hc m hm2) hsub

/-- C1: on a tree built by any sequence of Upserts, the cursor driven by
Next to exhaustion emits a run whose PKs are strictly increasing with no
duplicate, of length Len(); extra Next calls past exhaustion change
nothing. -/
theorem iterAscend_sorted_count (t0 : Nat) (l : List Item) :
    let tr := upsertAll (New t0) l
    let out := emitList (tr.Len + 1) tr.IterAscend
    List.Sorted (· < ·) (keys out) ∧ (keys out).Nodup ∧
    out.length = tr.Len ∧
    ∀ extra, emitList (tr.Len + 1 + extra) tr.IterAscend = out := by
  intro tr out
  have hinv : Inv tr := upsertAll_Inv l (New t0) (New_Inv t0)
  have hout : out = inorder tr.root := iterAscend_emits_inorder tr hinv 0
  obtain ⟨h1, h2, hsort, hcount⟩ := hinv
  refine ⟨?_, ?_, ?_, ?_⟩
  · rw [hout]
    exact hsort
  · rw [hout]
    exact List.Pairwise.imp (fun hab => ne_of_lt hab) hsort
  · rw [hout, BTree.Len]
    exact hcount.symm
  · intro extra
    show emitList (tr.n + 1 + extra) tr.IterAscend = out
    rw [iterAscend_emits_inorder tr ⟨h1, h2, hsort, hcount⟩ extra, hout]

/-- C2: after any sequence of Upserts, every node below the root holds
between t-1 and 2t-1 items sorted ascending by PK, every internal node
with k items has exactly k+1 children, and all leaves sit at one depth. -/
theorem node_occupancy_balance (t0 : Nat) (l : List Item) :
    let tr := upsertAll (New t0) l
    (∀ c ∈ tr.root.children, ∀ m ∈ allNodes c,
      (tr.t - 1 ≤ m.items.length ∧ m.items.length ≤ 2 * tr.t - 1) ∧
      List.Sorted (· < ·) (keys m.items)) ∧
    (∀ m ∈ allNodes tr.root, m.leaf = false →
      m.children.length = m.items.length + 1) ∧
    (∃ d, ∀ d2 ∈ leafDepths tr.root, d2 = d) := by
  intro tr
  have hinv := upsertAll_Inv l (New t0) (New_Inv t0)
  obtain ⟨ht2, ⟨h, hbal⟩, hsort, _⟩ := hinv
  refine ⟨?_, fun m hm hlf => (bal_allNodes hbal m hm).2.2 hlf,
    ⟨h, fun d2 hd2 => bal_leafDepths hbal d2 hd2⟩⟩
  intro c hc m hm
  cases htr : tr.root with
  | mk lf its cs =>
    rw [htr] at hbal hsort hc
    rw [Node.children] at hc
    have hbal2 := hbal
    cases hbal with
    | leaf _ _ _ _ => cases hc
    | internal lb its cs hsub hlb hub hlen hcs =>
      have hbc := hcs c hc
      have hbounds := bal_allNodes hbc m hm
      have hmroot : m ∈ allNodes (.mk false its cs) := by
        rw [allNodes]
        exact List.mem_cons_of_mem _ (mem_allNodesList.mpr ⟨c, hc, hm⟩)
      refine ⟨⟨?_, hbounds.2.1⟩, ?_⟩
      · rcases hbounds.1 with h1 | rfl
        · exact h1
        · exact (bal_len hbc).1
      · exact sorted_keys_sublist
          (List.Sublist.trans (items_sublist_inorder_any m)
            (inorder_allNodes_sublist hbal2 m hmroot)) hsort

/-- C6: on any reachable tree, upserting a present PK returns the stored
item with replaced = true and leaves Len() unchanged; upserting a fresh PK
returns the zero item with replaced = false and raises Len() by one. -/
theorem upsert_replace_semantics (t0 : Nat) (l : List Item) (it : Item) :
    let tr := upsertAll (New t0) l
    ((tr.Upsert it).2.2 = true ↔ it.PK ∈ keys (inorder tr.root)) ∧
    ((tr.Upsert it).2.2 = true →
      (inorder tr.root).find? (fun x => x.PK == it.PK) = some (tr.Upsert it).2.1 ∧
      (tr.Upsert it).1.Len = tr.Len) ∧
    ((tr.Upsert it).2.2 = false →
      (tr.Upsert it).2.1 = default ∧ (tr.Upsert it).1.Len = tr.Len + 1) := by
  intro tr
  have hspec := Upsert_spec tr it (upsertAll_Inv l (New t0) (New_Inv t0))
  refine ⟨hspec.2.2.1, ?_, ?_⟩
  · intro hr
    refine ⟨hspec.2.2.2.1 hr, ?_⟩
    rw [BTree.Len, BTree.Len, hspec.2.2.2.2.2.2, if_pos hr]
  · intro hr
    refine ⟨hspec.2.2.2.2.1 hr, ?_⟩
    rw [BTree.Len, BTree.Len, hspec.2.2.2.2.2.2, if_neg (by simp [hr])]

/-! ## AscendRange walks the flat sorted run -/

theorem ascendItems_append (lo hi : Int) (p : Item → Bool) : ∀ (A B : List Item),
    ascendItems lo hi p (A ++ B) =
      (match ascendItems lo hi p A with
       | (v, false) => (v, false)
       | (v, true) =>
         match ascendItems lo hi p B with
         | (r, b) => (v ++ r, b)) := by
  intro A
  induction A with
  | nil =>
    intro B
    rw [List.nil_append, ascendItems]
    cases hB : ascendItems lo hi p B with
    | mk r b =>
      cases b <;> simp
  | cons x xs ih =>
    intro B
    rw [List.cons_append, ascendItems, ascendItems]
    cases hv : visitItem lo hi p x with
    | mk v bv =>
      cases bv with
      | false => rfl
      | true =>
        rw [ih B]
        cases hxs : ascendItems lo hi p xs with
        | mk r b =>
          cases b with
          | false => simp
          | true =>
            cases hB : ascendItems lo hi p B with
            | mk r2 b2 => simp

theorem ascendZip_eq (lo hi : Int) (p : Item → Bool) : ∀ (its : List Item)
    (cs : List Node), cs.length = its.length + 1 →
    (∀ c ∈ cs, ascendRangeNode lo hi p c = ascendItems lo hi p (inorder c)) →
    ascendZip lo hi p its cs = ascendItems lo hi p (inorder (.mk false its cs)) := by
  intro its
  induction its with
  | nil =>
    intro cs hlen hcs
    cases cs with
    | nil => simp at hlen
    | cons c cs2 =>
      have hc2 : cs2 = [] := by
        simp only [List.length_cons, List.length_nil] at hlen
        exact List.length_eq_zero.mp (by omega)
      subst hc2
      rw [ascendZip, inorder_internal_cons, tailZip_nil_left, List.append_nil]
      exact hcs c (List.mem_cons_self c [])
  | cons x xs ih =>
    intro cs hlen hcs
    cases cs with
    | nil => simp at hlen
    | cons c cs2 =>
      rw [ascendZip, inorder_internal_cons, tailZip_cons, ascendItems_append,
        hcs c (List.mem_cons_self c cs2)]
      cases hc : ascendItems lo hi p (inorder c) with
      | mk v bv =>
        cases bv with
        | false => rfl
        | true =>
          rw [ascendItems]
          cases hv : visitItem lo hi p x with
          | mk v2 b2 =>
            cases b2 with
            | false => rfl
            | true =>
              rw [ih cs2 (by simpa using hlen)
                (fun c2 hc2 => hcs c2 (List.mem_cons_of_mem c hc2))]
              cases hr : ascendItems lo hi p (inorder (.mk false xs cs2)) with
              | mk r b => simp

theorem ascendRangeNode_eq {t : Nat} (lo hi : Int) (p : Item → Bool) :
    ∀ {lb h : Nat} {n : Node}, Bal t lb n h →
    ascendRangeNode lo hi p n = ascendItems lo hi p (inorder n) := by
  intro lb h n hb
  induction hb with
  | leaf lb its h1 h2 =>
    rw [ascendRangeNode, inorder_leaf]
  | internal lb its cs h h1 h2 hlen hcs ih =>
    rw [ascendRangeNode]
    exact ascendZip_eq lo hi p its cs hlen ih

theorem ascendItems_sorted_spec (lo hi : Int) (p : Item → Bool) :
    ∀ l : List Item, List.Sorted (· < ·) (keys l) →
    (ascendItems lo hi p l).1 =
      takeUntilFalse p (l.filter fun x => decide (lo ≤ x.PK ∧ x.PK < hi)) := by
  intro l
  induction l with
  | nil =>
    intro _
    rfl
  | cons x xs ih =>
    intro hs
    rw [ascendItems, visitItem]
    by_cases hit : lo ≤ x.PK ∧ x.PK < hi
    · rw [if_pos hit, List.filter_cons_of_pos (by simpa using hit)]
      by_cases hp : p x = true
      · rw [if_pos hp]
        have hlt : decide (x.PK < hi) = true := by
          simp [hit.2]
        rw [hlt]
        cases hxs : ascendItems lo hi p xs with
        | mk r b =>
          rw [takeUntilFalse, if_pos hp]
          have := ih (sorted_keys_cons.mp hs).2
          rw [hxs] at this
          simp at this
          simp [this]
      · rw [if_neg hp, takeUntilFalse, if_neg hp]
    · rw [if_neg hit, List.filter_cons_of_neg (by simpa using hit)]
      by_cases hlt : x.PK < hi
      · have hd : decide (x.PK < hi) = true := by simp [hlt]
        rw [hd]
        cases hxs : ascendItems lo hi p xs with
        | mk r b =>
          have := ih (sorted_keys_cons.mp hs).2
          rw [hxs] at this
          simp at this
          simp [this]
      · have hd : decide (x.PK < hi) = false := by simp [hlt]
        rw [hd]
        have hnil : xs.filter (fun x => decide (lo ≤ x.PK ∧ x.PK < hi)) = [] := by
          rw [List.filter_eq_nil_iff]
          intro a ha
          have h2 := (sorted_keys_cons.mp hs).1 a ha
          rw [decide_eq_true_eq]
          rintro ⟨_, h3⟩
          omega
        rw [hnil]
        rfl

theorem takeUntilFalse_sublist (p : Item → Bool) :
    ∀ l : List Item, (takeUntilFalse p l).Sublist l := by
  intro l
  induction l with
  | nil => exact List.Sublist.refl _
  | cons x xs ih =>
    rw [takeUntilFalse]
    by_cases hp : p x = true
    · rw [if_pos hp]
      exact List.Sublist.cons₂ x ih
    · rw [if_neg hp]
      exact List.Sublist.cons₂ x (List.nil_sublist xs)

/-- C7: AscendRange visits exactly the items with lo <= PK < hi, in
ascending PK order, stopping at the first item the visitor refuses; on the
t = 2 tree built from 10,20,5,6,12,30,7,17 the full range yields
5,6,7,10,12,17,20,30. -/
theorem ascendRange_spec (t0 : Nat) (l : List Item) (lo hi : Int) (p : Item → Bool) :
    (upsertAll (New t0) l).AscendRange lo hi p =
      takeUntilFalse p ((inorder (upsertAll (New t0) l).root).filter
        fun x => decide (lo ≤ x.PK ∧ x.PK < hi)) ∧
    List.Sorted (· < ·) (keys ((upsertAll (New t0) l).AscendRange lo hi p)) ∧
    keys ((upsertAll (New 2) ([10, 20, 5, 6, 12, 30, 7, 17].map
        (fun pk => ⟨pk, []⟩))).AscendRange 0 100 (fun _ => true)) =
      [5, 6, 7, 10, 12, 17, 20, 30] := by
  have hinv := upsertAll_Inv l (New t0) (New_Inv t0)
  obtain ⟨_, ⟨h, hbal⟩, hsort, _⟩ := hinv
  have h1 : (upsertAll (New t0) l).AscendRange lo hi p =
      takeUntilFalse p ((inorder (upsertAll (New t0) l).root).filter
        fun x => decide (lo ≤ x.PK ∧ x.PK < hi)) := by
    rw [BTree.AscendRange, ascendRangeNode_eq lo hi p hbal,
      ascendItems_sorted_spec lo hi p _ hsort]
  refine ⟨h1, ?_, by decide⟩
  rw [h1]
  exact sorted_keys_sublist
    (List.Sublist.trans (takeUntilFalse_sublist p _) (List.filter_sublist _)) hsort

/-! ## The flush loop writes a prefix and leaves the suffix on the cursor -/

theorem writeItem_ok {w : Writer} {it : Item}
    (h : (encodeItemInto [] it).isOk = true) :
    (WriteItem w it).2.items = w.items ++ [it] := by
  cases he : encodeItemInto [] it with
  | error e =>
    rw [he] at h
    simp at h
  | ok buf =>
    rw [WriteItem, he]

theorem iteratorWriter_spec : ∀ (fuel : Nat) (st : List Frame) (w : Writer) (b : Nat),
    (stackRem st).length < fuel →
    (∀ it ∈ stackRem st, (encodeItemInto [] it).isOk = true) →
    ∃ k, k ≤ (stackRem st).length ∧
      (iteratorWriter fuel st w b).2.1.items = w.items ++ (stackRem st).take k ∧
      stackRem (iteratorWriter fuel st w b).1 = (stackRem st).drop k ∧
      ((iteratorWriter fuel st w b).2.2 = 0 ∧ k = (stackRem st).length ∨
        1 ≤ k ∧ b ≠ 0 ∧
          (iteratorWriter fuel st w b).2.2 =
            ((stackRem st).getD (k - 1) default).PK) := by
  intro fuel
  induction fuel with
  | zero =>
    intro st w b h henc
    omega
  | succ fuel ih =>
    intro st w b h henc
    simp only [iteratorWriter]
    cases hn : nextLoop st with
    | none =>
      dsimp only
      refine ⟨0, Nat.zero_le _, by simp, by rw [List.drop_zero], Or.inl ⟨rfl, ?_⟩⟩
      rw [nextLoop_none st hn]
      rfl
    | some pr =>
      obtain ⟨item, st1⟩ := pr
      dsimp only
      have hrem := nextLoop_some st st1 item hn
      have hito : item ∈ stackRem st := by
        rw [hrem]
        exact List.mem_cons_self _ _
      have hw1 : (WriteItem w item).2.items = w.items ++ [item] :=
        writeItem_ok (henc item hito)
      by_cases hbr : b ≤ (WriteItem w item).2.BytesWritten ∧ b ≠ 0
      · rw [if_pos hbr]
        refine ⟨1, ?_, ?_, ?_, Or.inr ⟨le_refl 1, hbr.2, ?_⟩⟩
        · rw [hrem]
          simp
        · rw [hw1, hrem]
          simp
        · rw [hrem]
          simp
        · rw [hrem]
          simp
      · rw [if_neg hbr]
        have hlen1 : (stackRem st1).length < fuel := by
          rw [hrem, List.length_cons] at h
          omega
        have henc1 : ∀ it2 ∈ stackRem st1, (encodeItemInto [] it2).isOk = true :=
          fun it2 hit2 => henc it2 (by
            rw [hrem]
            exact List.mem_cons_of_mem _ hit2)
        obtain ⟨k, hk, hki, hkr, hkret⟩ := ih st1 (WriteItem w item).2 b hlen1 henc1
        refine ⟨k + 1, ?_, ?_, ?_, ?_⟩
        · rw [hrem, List.length_cons]
          omega
        · rw [hki, hw1, hrem, List.take_succ_cons, List.append_assoc]
          rfl
        · rw [hkr, hrem, List.drop_succ_cons]
        · rcases hkret with ⟨hr0, hklen⟩ | ⟨hk1, hb, hretv⟩
          · refine Or.inl ⟨hr0, ?_⟩
            rw [hrem, List.length_cons]
            omega
          · refine Or.inr ⟨by omega, hb, ?_⟩
            rw [hretv, hrem]
            have hkk : k + 1 - 1 = (k - 1) + 1 := by omega
            rw [hkk, List.getD_cons_succ]

theorem writeMapToFile_eq (G : IngestState) (B : Nat) :
    writeMapToFile G B =
      match nextLoop (iteratorWriter (G.tr.n + 1) G.tr.IterAscend NewWriter (B / 2)).1 with
      | none =>
        ([⟨G.minKey,
            (iteratorWriter (G.tr.n + 1) G.tr.IterAscend NewWriter (B / 2)).2.2,
            (iteratorWriter (G.tr.n + 1) G.tr.IterAscend NewWriter (B / 2)).2.1.items⟩],
         resetInMemoryState)
      | some (item, it2) =>
        ([⟨G.minKey,
            (iteratorWriter (G.tr.n + 1) G.tr.IterAscend NewWriter (B / 2)).2.2,
            (iteratorWriter (G.tr.n + 1) G.tr.IterAscend NewWriter (B / 2)).2.1.items⟩,
          ⟨item.PK, G.maxKey,
            (iteratorWriter (G.tr.n + 1) it2 (WriteItem NewWriter item).2 0).2.1.items⟩],
         resetInMemoryState) := rfl

/-- The two segment files of a flush, named and filled from the sorted
buffered run: the two-file outcome splits the run at 1 <= k < length, the
one-file outcome drains it whole (returning 0 unless the byte threshold
fired on the very last item); either way the trackers are reset. -/
theorem writeMapToFile_spec (G : IngestState) (B : Nat) (hinv : Inv G.tr)
    (henc : ∀ it ∈ inorder G.tr.root, (encodeItemInto [] it).isOk = true) :
    (∀ f1 f2, (writeMapToFile G B).1 = [f1, f2] →
      ∃ k, 1 ≤ k ∧ k < (inorder G.tr.root).length ∧
        f1 = ⟨G.minKey, ((inorder G.tr.root).getD (k - 1) default).PK,
          (inorder G.tr.root).take k⟩ ∧
        f2 = ⟨((inorder G.tr.root).getD k default).PK, G.maxKey,
          (inorder G.tr.root).drop k⟩) ∧
    (∀ f1, (writeMapToFile G B).1 = [f1] →
      f1.lo = G.minKey ∧ f1.recs = inorder G.tr.root ∧
      (f1.hi = 0 ∨ (1 ≤ (inorder G.tr.root).length ∧
        f1.hi = ((inorder G.tr.root).getD
          ((inorder G.tr.root).length - 1) default).PK))) ∧
    (writeMapToFile G B).2 = resetInMemoryState := by
  have hrem0 : stackRem G.tr.IterAscend = inorder G.tr.root := by
    rw [BTree.IterAscend, stackRem_pushLeft (height G.tr.root) G.tr.root
      (le_refl _) [], stackRem, List.append_nil]
  have hlen0 : (stackRem G.tr.IterAscend).length < G.tr.n + 1 := by
    rw [hrem0, ← hinv.2.2.2]
    omega
  have henc0 : ∀ it ∈ stackRem G.tr.IterAscend, (encodeItemInto [] it).isOk = true := by
    rw [hrem0]
    exact henc
  obtain ⟨k, hk, hki, hkr, hkret⟩ :=
    iteratorWriter_spec (G.tr.n + 1) G.tr.IterAscend NewWriter (B / 2) hlen0 henc0
  rw [hrem0] at hki hkr hkret hk
  have hEQ := writeMapToFile_eq G B
  cases hnl : nextLoop (iteratorWriter (G.tr.n + 1) G.tr.IterAscend NewWriter (B / 2)).1 with
  | none =>
    rw [hnl] at hEQ
    have hdrop : (inorder G.tr.root).drop k = [] := by
      rw [← hkr]
      exact nextLoop_none _ hnl
    have hkeq : k = (inorder G.tr.root).length := by
      have := List.drop_eq_nil_iff.mp hdrop
      omega
    refine ⟨?_, ?_, by rw [hEQ]⟩
    · intro f1 f2 hcon
      rw [hEQ] at hcon
      simp at hcon
    · intro f1 hf1
      rw [hEQ] at hf1
      have hf1eq : f1 =
          ⟨G.minKey,
            (iteratorWriter (G.tr.n + 1) G.tr.IterAscend NewWriter (B / 2)).2.2,
            (iteratorWriter (G.tr.n + 1) G.tr.IterAscend NewWriter (B / 2)).2.1.items⟩ := by
        have : ([⟨G.minKey,
            (iteratorWriter (G.tr.n + 1) G.tr.IterAscend NewWriter (B / 2)).2.2,
            (iteratorWriter (G.tr.n + 1) G.tr.IterAscend NewWriter (B / 2)).2.1.items⟩] :
              List SegFile) = [f1] := hf1
        injection this with h1 h2
        exact h1.symm
      rw [hf1eq]
      refine ⟨rfl, ?_, ?_⟩
      · show (iteratorWriter (G.tr.n + 1) G.tr.IterAscend NewWriter (B / 2)).2.1.items =
          inorder G.tr.root
        rw [hki, hkeq, List.take_length, NewWriter]
        rfl
      · rcases hkret with ⟨hr0, _⟩ | ⟨hk1, _, hretv⟩
        · exact Or.inl hr0
        · exact Or.inr ⟨by omega, by rw [hretv, hkeq]⟩
  | some pr =>
    obtain ⟨item, it2⟩ := pr
    rw [hnl] at hEQ
    have hrem2 := nextLoop_some _ it2 item hnl
    rw [hkr] at hrem2
    have hklt : k < (inorder G.tr.root).length := by
      by_contra hcon
      rw [List.drop_eq_nil_of_le (by omega)] at hrem2
      cases hrem2
    have hdropk : (inorder G.tr.root).drop k =
        (inorder G.tr.root).getD k default :: (inorder G.tr.root).drop (k + 1) := by
      rw [getD_eq_get default hklt]
      exact (List.getElem_cons_drop _ k hklt).symm
    have hitem : item = (inorder G.tr.root).getD k default := by
      have hX := hdropk.symm.trans hrem2
      injection hX with hh ht
      exact hh.symm
    have hrem2b : stackRem it2 = (inorder G.tr.root).drop (k + 1) := by
      have hX := hdropk.symm.trans hrem2
      injection hX with hh ht
      exact ht.symm
    have hw2 : (WriteItem NewWriter item).2.items = [item] := by
      have hX := @writeItem_ok NewWriter item (henc item (by
        rw [hitem]
        exact getD_mem default hklt))
      rw [hX, NewWriter]
      rfl
    have hlen2 : (stackRem it2).length < G.tr.n + 1 := by
      rw [hrem2b, List.length_drop, ← hinv.2.2.2]
      omega
    have henc2 : ∀ it2a ∈ stackRem it2, (encodeItemInto [] it2a).isOk = true := by
      intro it2a hit2a
      refine henc it2a ?_
      rw [hrem2b] at hit2a
      exact List.Sublist.mem hit2a (List.drop_sublist _ _)
    obtain ⟨k2, hk2, hki2, hkr2, hkret2⟩ :=
      iteratorWriter_spec (G.tr.n + 1) it2 (WriteItem NewWriter item).2 0
        hlen2 henc2
    have hk2full : k2 = (stackRem it2).length := by
      rcases hkret2 with ⟨_, hfull⟩ | ⟨_, hb, _⟩
      · exact hfull
      · exact absurd rfl hb
    refine ⟨?_, ?_, by rw [hEQ]⟩
    · intro f1 f2 hf
      rw [hEQ] at hf
      have hbreak : 1 ≤ k ∧
          (iteratorWriter (G.tr.n + 1) G.tr.IterAscend NewWriter (B / 2)).2.2 =
            ((inorder G.tr.root).getD (k - 1) default).PK := by
        rcases hkret with ⟨_, hfull⟩ | ⟨hk1, _, hretv⟩
        · omega
        · exact ⟨hk1, hretv⟩
      injection hf with h1 h2
      injection h2 with h3 h4
      refine ⟨k, hbreak.1, hklt, ?_, ?_⟩
      · rw [← h1, hki, hbreak.2, NewWriter]
        rfl
      · rw [← h3, hki2, hw2, hk2full, hrem2b, ← hrem2b, List.take_length, hrem2b,
          hitem, hdropk]
        rfl
    · intro f1 hcon
      rw [hEQ] at hcon
      simp at hcon

theorem writeMapToFile_reset (G : IngestState) (B : Nat) :
    (writeMapToFile G B).2 = resetInMemoryState := by
  rw [writeMapToFile_eq]
  cases nextLoop (iteratorWriter (G.tr.n + 1) G.tr.IterAscend NewWriter (B / 2)).1 with
  | none => rfl
  | some pr =>
    obtain ⟨item, it2⟩ := pr
    rfl

theorem writeMapToFile_ne_nil (G : IngestState) (B : Nat) :
    (writeMapToFile G B).1 ≠ [] := by
  rw [writeMapToFile_eq]
  cases nextLoop (iteratorWriter (G.tr.n + 1) G.tr.IterAscend NewWriter (B / 2)).1 with
  | none => simp
  | some pr =>
    obtain ⟨item, it2⟩ := pr
    simp

theorem importDataFromFile_eq (fileSize : Nat) (lines : List Line) (B : Nat) :
    importDataFromFile fileSize lines B =
      if decide (B < fileSize) = true ∧
          0 < (importLoop (decide (B < fileSize)) B (initialState, []) lines).1.tr.Len then
        ((writeMapToFile
            (importLoop (decide (B < fileSize)) B (initialState, []) lines).1 B).2,
         (importLoop (decide (B < fileSize)) B (initialState, []) lines).2 ++
           (writeMapToFile
             (importLoop (decide (B < fileSize)) B (initialState, []) lines).1 B).1)
      else importLoop (decide (B < fileSize)) B (initialState, []) lines := rfl

theorem sorted_getD_lt {its : List Item} (hs : List.Sorted (· < ·) (keys its))
    {a b : Nat} (hab : a < b) (hb : b < its.length) :
    (its.getD a default).PK < (its.getD b default).PK := by
  have ha : a < its.length := lt_trans hab hb
  rw [getD_eq_get default ha, getD_eq_get default hb]
  have hm := List.pairwise_iff_getElem.mp hs a b
    (by simpa [keys] using ha) (by simpa [keys] using hb) hab
  simpa [keys] using hm

/-! ## The claims on the driver -/

/-- C3: when a flush of a non-empty index produces both a lower and an
upper segment, every PK written to the lower segment is strictly below
every PK written to the upper one, and the two segments' records together
are exactly the run buffered in the index when the flush began. -/
theorem flush_two_segment_partition (t0 : Nat) (l : List Item)
    (mk0 mx0 : Int) (smm : Bool) (cms B : Nat) (f1 f2 : SegFile)
    (henc : ∀ it ∈ inorder (upsertAll (New t0) l).root,
      (encodeItemInto [] it).isOk = true)
    (hf : (writeMapToFile ⟨upsertAll (New t0) l, cms, mk0, mx0, smm⟩ B).1 = [f1, f2]) :
    (∀ p ∈ keys f1.recs, ∀ q ∈ keys f2.recs, p < q) ∧
    f1.recs ++ f2.recs = inorder (upsertAll (New t0) l).root := by
  have hinv : Inv (upsertAll (New t0) l) := upsertAll_Inv l (New t0) (New_Inv t0)
  obtain ⟨h2f, h1f, hrs⟩ :=
    writeMapToFile_spec ⟨upsertAll (New t0) l, cms, mk0, mx0, smm⟩ B hinv henc
  dsimp only at h2f h1f
  obtain ⟨k, hk1, hklt, hf1, hf2⟩ := h2f f1 f2 hf
  subst hf1
  subst hf2
  have hunion : (inorder (upsertAll (New t0) l).root).take k ++
      (inorder (upsertAll (New t0) l).root).drop k =
        inorder (upsertAll (New t0) l).root := List.take_append_drop k _
  refine ⟨?_, hunion⟩
  have hsort : List.Sorted (· < ·) (keys (inorder (upsertAll (New t0) l).root)) :=
    hinv.2.2.1
  rw [← hunion] at hsort
  intro p hp q hq
  obtain ⟨a, ha, hap⟩ := mem_keys.mp hp
  obtain ⟨b, hb, hbq⟩ := mem_keys.mp hq
  have hcross := (sorted_keys_append.mp hsort).2.2 a ha b hb
  omega

/-- C3 witness: a degree-2 tree holding PKs 1 and 2, flushed under a
2-byte budget, splits into the expected two segments. -/
theorem flush_two_segment_partition_witness :
    (∀ it ∈ inorder (upsertAll (New 2) [⟨1, []⟩, ⟨2, []⟩]).root,
      (encodeItemInto [] it).isOk = true) ∧
    (writeMapToFile ⟨upsertAll (New 2) [⟨1, []⟩, ⟨2, []⟩], 20, 1, 2, true⟩ 2).1 =
      [⟨1, 1, [⟨1, []⟩]⟩, ⟨2, 2, [⟨2, []⟩]⟩] ∧
    ((∀ p ∈ keys (SegFile.recs ⟨1, 1, [⟨1, []⟩]⟩),
        ∀ q ∈ keys (SegFile.recs ⟨2, 2, [⟨2, []⟩]⟩), p < q) ∧
      SegFile.recs ⟨1, 1, [⟨1, []⟩]⟩ ++ SegFile.recs ⟨2, 2, [⟨2, []⟩]⟩ =
        inorder (upsertAll (New 2) [⟨1, []⟩, ⟨2, []⟩]).root) :=
  ⟨by decide, by decide,
    flush_two_segment_partition 2 [⟨1, []⟩, ⟨2, []⟩] 1 2 true 20 2 _ _
      (by decide) (by decide)⟩

/-- C4: counterexample -- a 10-byte input scanned under a 1000-byte budget
ends with one item still buffered in the index and no flush performed,
because both the in-loop and the end-of-input flush are gated on the input
file being bigger than the memory budget. -/
theorem import_no_final_flush_cex :
    0 < (importDataFromFile 10 [⟨10, 1, []⟩] 1000).1.tr.Len ∧
    (importDataFromFile 10 [⟨10, 1, []⟩] 1000).2 = [] := by
  decide

/-- C4 (amended): when the input file is bigger than the memory budget,
the run ends with an empty index; if the scan loop leaves the index
non-empty, one final flush runs and appends at least one segment file,
and with an empty index no final flush output is appended. -/
theorem import_final_flush_gated (fileSize : Nat) (lines : List Line) (B : Nat)
    (hgate : B < fileSize) :
    (importDataFromFile fileSize lines B).1.tr.Len = 0 ∧
    (0 < (importLoop true B (initialState, []) lines).1.tr.Len →
      (importDataFromFile fileSize lines B).2 =
        (importLoop true B (initialState, []) lines).2 ++
          (writeMapToFile (importLoop true B (initialState, []) lines).1 B).1 ∧
      (writeMapToFile (importLoop true B (initialState, []) lines).1 B).1 ≠ []) ∧
    ((importLoop true B (initialState, []) lines).1.tr.Len = 0 →
      (importDataFromFile fileSize lines B).2 =
        (importLoop true B (initialState, []) lines).2) := by
  have hd : decide (B < fileSize) = true := decide_eq_true hgate
  have hEQ := importDataFromFile_eq fileSize lines B
  rw [hd] at hEQ
  by_cases hlen : 0 < (importLoop true B (initialState, []) lines).1.tr.Len
  · rw [if_pos ⟨rfl, hlen⟩] at hEQ
    refine ⟨?_, fun _ => ⟨?_, writeMapToFile_ne_nil _ _⟩, fun h0 => absurd h0 (by omega)⟩
    · rw [hEQ]
      show (writeMapToFile (importLoop true B (initialState, []) lines).1 B).2.tr.Len = 0
      rw [writeMapToFile_reset]
      rfl
    · rw [hEQ]
  · rw [if_neg (fun hc => hlen hc.2)] at hEQ
    have hz : (importLoop true B (initialState, []) lines).1.tr.Len = 0 := by omega
    exact ⟨by rw [hEQ]; exact hz, fun hpos => absurd hpos hlen, fun _ => by rw [hEQ]⟩

/-- C4 witness: two 8-byte lines under a 10-byte budget from a 30-byte
file leave the loop with one buffered item, so the end-of-input flush
fires. -/
theorem import_final_flush_gated_witness :
    10 < 30 ∧
    ((importDataFromFile 30 [⟨8, 5, []⟩, ⟨8, 7, []⟩] 10).1.tr.Len = 0 ∧
      (0 < (importLoop true 10 (initialState, []) [⟨8, 5, []⟩, ⟨8, 7, []⟩]).1.tr.Len →
        (importDataFromFile 30 [⟨8, 5, []⟩, ⟨8, 7, []⟩] 10).2 =
          (importLoop true 10 (initialState, []) [⟨8, 5, []⟩, ⟨8, 7, []⟩]).2 ++
            (writeMapToFile
              (importLoop true 10 (initialState, []) [⟨8, 5, []⟩, ⟨8, 7, []⟩]).1 10).1 ∧
        (writeMapToFile
          (importLoop true 10 (initialState, []) [⟨8, 5, []⟩, ⟨8, 7, []⟩]).1 10).1 ≠ []) ∧
      ((importLoop true 10 (initialState, []) [⟨8, 5, []⟩, ⟨8, 7, []⟩]).1.tr.Len = 0 →
        (importDataFromFile 30 [⟨8, 5, []⟩, ⟨8, 7, []⟩] 10).2 =
          (importLoop true 10 (initialState, []) [⟨8, 5, []⟩, ⟨8, 7, []⟩]).2)) :=
  ⟨by decide, import_final_flush_gated 30 [⟨8, 5, []⟩, ⟨8, 7, []⟩] 10 (by decide)⟩

/-- C5: counterexample -- flushing a batch whose single buffered item has
PK 5 under a large budget exhausts the iterator before the byte threshold,
and the lower segment is renamed to the bound pair (5, 0): the sentinel 0,
not the PK 5 of the last item actually written to it. -/
theorem lower_rename_exhausted_cex :
    (writeMapToFile ⟨upsertAll (New 2) [⟨5, []⟩], 0, 5, 5, true⟩ 1000).1 =
      [⟨5, 0, [⟨5, []⟩]⟩] ∧ ((5 : Int) ≠ 0) := by
  decide

/-- C5 (amended): in a two-segment flush the renames do embed exactly the
written contents (lower's max is the PK of its last written item, upper's
min the PK of its first, ranges cover their files' PKs and do not
overlap); but when the iterator is exhausted before the byte threshold the
single lower file is renamed with the sentinel 0 as its max, not the PK of
the last item written. -/
theorem flush_segment_names (t0 : Nat) (l : List Item) (mk0 mx0 : Int)
    (smm : Bool) (cms B : Nat)
    (henc : ∀ it ∈ inorder (upsertAll (New t0) l).root,
      (encodeItemInto [] it).isOk = true)
    (hmin : ∀ p ∈ keys (inorder (upsertAll (New t0) l).root), mk0 ≤ p)
    (hmax : ∀ p ∈ keys (inorder (upsertAll (New t0) l).root), p ≤ mx0) :
    (∀ f1 f2,
      (writeMapToFile ⟨upsertAll (New t0) l, cms, mk0, mx0, smm⟩ B).1 = [f1, f2] →
      f1.recs ++ f2.recs = inorder (upsertAll (New t0) l).root ∧
      f1.recs ≠ [] ∧ f2.recs ≠ [] ∧
      f1.lo = mk0 ∧ f2.hi = mx0 ∧
      f1.hi = (f1.recs.getD (f1.recs.length - 1) default).PK ∧
      f2.lo = (f2.recs.getD 0 default).PK ∧
      (∀ p ∈ keys f1.recs, f1.lo ≤ p ∧ p ≤ f1.hi) ∧
      (∀ p ∈ keys f2.recs, f2.lo ≤ p ∧ p ≤ f2.hi) ∧
      f1.hi < f2.lo) ∧
    (∀ f1,
      (writeMapToFile ⟨upsertAll (New t0) l, cms, mk0, mx0, smm⟩ B).1 = [f1] →
      f1.recs = inorder (upsertAll (New t0) l).root ∧ f1.lo = mk0 ∧
      (f1.hi = 0 ∨
        (f1.recs ≠ [] ∧
          f1.hi = (f1.recs.getD (f1.recs.length - 1) default).PK))) := by
  have hinv : Inv (upsertAll (New t0) l) := upsertAll_Inv l (New t0) (New_Inv t0)
  have hsort : List.Sorted (· < ·) (keys (inorder (upsertAll (New t0) l).root)) :=
    hinv.2.2.1
  obtain ⟨h2f, h1f, hrs⟩ :=
    writeMapToFile_spec ⟨upsertAll (New t0) l, cms, mk0, mx0, smm⟩ B hinv henc
  dsimp only at h2f h1f
  constructor
  · intro f1 f2 hf
    obtain ⟨k, hk1, hklt, hf1, hf2⟩ := h2f f1 f2 hf
    subst hf1
    subst hf2
    have htlen : ((inorder (upsertAll (New t0) l).root).take k).length = k := by
      rw [List.length_take]
      omega
    have htsort : List.Sorted (· < ·)
        (keys ((inorder (upsertAll (New t0) l).root).take k)) :=
      sorted_keys_sublist (List.take_sublist _ _) hsort
    have hdsort : List.Sorted (· < ·)
        (keys ((inorder (upsertAll (New t0) l).root).drop k)) :=
      sorted_keys_sublist (List.drop_sublist _ _) hsort
    have hdropk : (inorder (upsertAll (New t0) l).root).drop k =
        (inorder (upsertAll (New t0) l).root).getD k default ::
          (inorder (upsertAll (New t0) l).root).drop (k + 1) := by
      rw [getD_eq_get default hklt]
      exact (List.getElem_cons_drop _ k hklt).symm
    have h6 : (inorder (upsertAll (New t0) l).root).getD (k - 1) default =
        ((inorder (upsertAll (New t0) l).root).take k).getD (k - 1) default := by
      conv_lhs => rw [← List.take_append_drop k (inorder (upsertAll (New t0) l).root)]
      rw [List.getD_append]
      rw [htlen]
      omega
    have h7 : ((inorder (upsertAll (New t0) l).root).drop k).getD 0 default =
        (inorder (upsertAll (New t0) l).root).getD k default := by
      rw [hdropk]
      exact List.getD_cons_zero
    refine ⟨List.take_append_drop k _, ?_, ?_, rfl, rfl, ?_, ?_, ?_, ?_, ?_⟩
    · intro hnil
      have hl := congrArg List.length hnil
      rw [htlen] at hl
      simp at hl
      omega
    · intro hnil
      have hl := List.drop_eq_nil_iff.mp hnil
      omega
    · show ((inorder (upsertAll (New t0) l).root).getD (k - 1) default).PK =
        (((inorder (upsertAll (New t0) l).root).take k).getD
          (((inorder (upsertAll (New t0) l).root).take k).length - 1) default).PK
      rw [htlen, ← h6]
    · show ((inorder (upsertAll (New t0) l).root).getD k default).PK =
        (((inorder (upsertAll (New t0) l).root).drop k).getD 0 default).PK
      rw [h7]
    · intro p hp
      obtain ⟨a, ha, hap⟩ := mem_keys.mp hp
      obtain ⟨j, hj, hja⟩ := List.mem_iff_getElem.mp ha
      have hjk : j < k := by
        rw [htlen] at hj
        exact hj
      have hgd : ((inorder (upsertAll (New t0) l).root).take k).getD j default = a := by
        rw [getD_eq_get default hj, hja]
      constructor
      · exact hmin p (mem_keys.mpr ⟨a, (List.take_sublist _ _).subset ha, hap⟩)
      · show p ≤ ((inorder (upsertAll (New t0) l).root).getD (k - 1) default).PK
        rw [h6, ← hap, ← hgd]
        exact sorted_getD_le htsort (by omega) (by rw [htlen]; omega)
    · intro p hp
      obtain ⟨a, ha, hap⟩ := mem_keys.mp hp
      obtain ⟨j, hj, hja⟩ := List.mem_iff_getElem.mp ha
      have hgd : ((inorder (upsertAll (New t0) l).root).drop k).getD j default = a := by
        rw [getD_eq_get default hj, hja]
      constructor
      · show ((inorder (upsertAll (New t0) l).root).getD k default).PK ≤ p
        rw [← h7, ← hap, ← hgd]
        exact sorted_getD_le hdsort (Nat.zero_le j) hj
      · exact hmax p (mem_keys.mpr ⟨a, (List.drop_sublist _ _).subset ha, hap⟩)
    · show ((inorder (upsertAll (New t0) l).root).getD (k - 1) default).PK <
        ((inorder (upsertAll (New t0) l).root).getD k default).PK
      exact sorted_getD_lt hsort (by omega) hklt
  · intro f1 hf
    obtain ⟨hlo, hrecs, hhi⟩ := h1f f1 hf
    refine ⟨hrecs, hlo, ?_⟩
    rcases hhi with h0 | ⟨hlen, hv⟩
    · exact Or.inl h0
    · refine Or.inr ⟨?_, ?_⟩
      · rw [hrecs]
        intro hnil
        rw [hnil] at hlen
        simp at hlen
      · rw [hrecs]
        exact hv

/-- C5 witness: a single-item batch under a large budget takes the
one-file branch of the amended statement. -/
theorem flush_segment_names_witness :
    (∀ it ∈ inorder (upsertAll (New 2) [⟨1, []⟩]).root,
      (encodeItemInto [] it).isOk = true) ∧
    (∀ p ∈ keys (inorder (upsertAll (New 2) [⟨1, []⟩]).root), (1 : Int) ≤ p) ∧
    (∀ p ∈ keys (inorder (upsertAll (New 2) [⟨1, []⟩]).root), p ≤ (1 : Int)) ∧
    ((∀ f1 f2,
      (writeMapToFile ⟨upsertAll (New 2) [⟨1, []⟩], 0, 1, 1, true⟩ 1000).1 = [f1, f2] →
      f1.recs ++ f2.recs = inorder (upsertAll (New 2) [⟨1, []⟩]).root ∧
      f1.recs ≠ [] ∧ f2.recs ≠ [] ∧
      f1.lo = 1 ∧ f2.hi = 1 ∧
      f1.hi = (f1.recs.getD (f1.recs.length - 1) default).PK ∧
      f2.lo = (f2.recs.getD 0 default).PK ∧
      (∀ p ∈ keys f1.recs, f1.lo ≤ p ∧ p ≤ f1.hi) ∧
      (∀ p ∈ keys f2.recs, f2.lo ≤ p ∧ p ≤ f2.hi) ∧
      f1.hi < f2.lo) ∧
    (∀ f1,
      (writeMapToFile ⟨upsertAll (New 2) [⟨1, []⟩], 0, 1, 1, true⟩ 1000).1 = [f1] →
      f1.recs = inorder (upsertAll (New 2) [⟨1, []⟩]).root ∧ f1.lo = 1 ∧
      (f1.hi = 0 ∨
        (f1.recs ≠ [] ∧
          f1.hi = (f1.recs.getD (f1.recs.length - 1) default).PK)))) :=
  ⟨by decide, by decide, by decide,
    flush_segment_names 2 [⟨1, []⟩] 1 1 true 0 1000
      (by decide) (by decide) (by decide)⟩

/-- C9: counterexample -- under a 10-byte budget two 8-byte lines with PKs
5 then 7 force a flush between them; the pass ends with minKey = 7 even
though PK 5 was seen earlier in the same pass, so the trackers do not
reflect all records of the pass. -/
theorem minmax_reset_on_flush_cex :
    ((5 : Int) ∈ List.map Line.pk [⟨8, 5, []⟩, ⟨8, 7, []⟩]) ∧
    (importLoop true 10 (initialState, []) [⟨8, 5, []⟩, ⟨8, 7, []⟩]).2 ≠ [] ∧
    (importLoop true 10 (initialState, []) [⟨8, 5, []⟩, ⟨8, 7, []⟩]).1.minKey = 7 ∧
    ¬((importLoop true 10 (initialState, []) [⟨8, 5, []⟩, ⟨8, 7, []⟩]).1.minKey ≤ 5) := by
  decide

/-- C9 (amended): the min/max trackers reflect the current buffered batch
only: every flush resets minKey, maxKey and the setMinMaxKey flag along
with the index, while within a batch trackMinMax folds each new PK into
the running bounds (seeding them on the first record after a reset). -/
theorem minmax_batch_semantics (G : IngestState) (B : Nat) (pk : Int) :
    (writeMapToFile G B).2.minKey = 0 ∧
    (writeMapToFile G B).2.maxKey = 0 ∧
    (writeMapToFile G B).2.setMinMaxKey = false ∧
    (trackMinMax G pk).setMinMaxKey = true ∧
    (trackMinMax G pk).minKey = (if G.setMinMaxKey then min G.minKey pk else pk) ∧
    (trackMinMax G pk).maxKey = (if G.setMinMaxKey then max G.maxKey pk else pk) := by
  refine ⟨by rw [writeMapToFile_reset]; rfl, by rw [writeMapToFile_reset]; rfl,
    by rw [writeMapToFile_reset]; rfl, ?_, ?_, ?_⟩
  · cases hs : G.setMinMaxKey
    · simp [trackMinMax, hs]
    · simp only [trackMinMax, hs]
      split_ifs <;> simp_all
  · cases hs : G.setMinMaxKey
    · simp [trackMinMax, hs]
    · simp only [trackMinMax, hs]
      split_ifs <;> simp_all <;> omega
  · cases hs : G.setMinMaxKey
    · simp [trackMinMax, hs]
    · simp only [trackMinMax, hs]
      split_ifs <;> simp_all <;> omega

end SpeedyDb
